import Mathlib

/-!
Shallow embedding of the `async_injector` dependency-resolution engine
(`src/async_injector/{util,provider,injector,errors}.py`) and proofs about it.

Modelling conventions:
* Interfaces (Python type objects used as lookup keys) are opaque identities,
  modelled as `Nat`.
* Values produced by providers live in an arbitrary type `V`.
* `asyncio` futures/tasks are modelled by a task store `List (Future V)`:
  creating a task appends a `Future` holding the computation's eventual result
  with `done := false`; awaiting a task (in `aget_value` / `aget_multiple`)
  marks it done.  This is the single-threaded cooperative model of the spec:
  a task's `done` flag flips only at an explicit await point.
* Python exceptions become an `Err` sum; operations that can raise return
  `Except Err _`, and walker/facade operations return a result that also
  carries the state at the point of failure.
* Provider invocations are recorded in a ghost `log : List Iface` (the
  interface of each provider whose production was invoked/scheduled, in
  order), used to state "the provider is never invoked twice" properties.
-/

namespace AsyncInjector

/-- Interfaces are opaque type identities compared by equality (injector.py
uses Python classes as dict keys); modelled as `Nat`. -/
abbrev Iface := Nat

/-- Error taxonomy of `errors.py` plus the two non-injection failure modes the
Python code can hit: `unpack` is the `ValueError` raised by tuple unpacking of
an empty list in `Injector.acall` (injector.py line 35), and `internal` stands
for `KeyError`/`StopIteration`-style failures that are unreachable on states
maintained by the dependency walker. -/
inductive Err where
  | annotationMissing
  | circular (i : Iface)
  | missing (i : Iface)
  | mismatch (i : Option Iface)
  | unpack
  | internal
deriving DecidableEq, Repr

/-- Err is one of the four injection error kinds of `errors.py`
(`AnnotationMissing`, `CircularDependency`, `ProviderMissing`,
`SyncAsyncMismatch`). -/
def Err.isInjectionError : Err → Bool
  | .annotationMissing => true
  | .circular _ => true
  | .missing _ => true
  | .mismatch _ => true
  | .unpack => false
  | .internal => false

/-- Association-list lookup, modelling Python `dict` read (`d[k]` / `d.get(k)`). -/
def lookupA {κ α : Type} [DecidableEq κ] : List (κ × α) → κ → Option α
  | [], _ => none
  | (k, a) :: rest, i => if k = i then some a else lookupA rest i

/-- Association-list write, modelling Python `dict` assignment `d[k] = a`
(overwrites in place if the key is present, appends otherwise, preserving
insertion order exactly like a CPython dict). -/
def insertA {κ α : Type} [DecidableEq κ] : List (κ × α) → κ → α → List (κ × α)
  | [], i, a => [(i, a)]
  | (k, b) :: rest, i, a =>
    if k = i then (k, a) :: rest else (k, b) :: insertA rest i a

/-- ProvidedValue (util.py lines 37-54): a tagged union, either a bare
already-computed value or a reference to an asyncio task in the task store. -/
inductive PValue (V : Type) where
  | bare (v : V)
  | task (id : Nat)
deriving DecidableEq, Repr

/-- Model of an asyncio future: the value the computation will produce and
whether it has completed yet. -/
structure Future (V : Type) where
  result : V
  done : Bool
deriving DecidableEq, Repr

/-- Value a ProvidedValue will eventually yield (`none` if it references a
task id absent from the store — unreachable on reachable states). -/
def PValue.eventual {V : Type} (tasks : List (Future V)) : PValue V → Option V
  | .bare v => some v
  | .task id => (tasks[id]?).map Future.result

/-- Eventual value of a ProvidedValue in the `Except` monad (a dangling task
id is a Python-level error, unreachable on reachable states). -/
def eventualE {V : Type} (tasks : List (Future V)) (pv : PValue V) : Except Err V :=
  match PValue.eventual tasks pv with
  | some v => Except.ok v
  | none => Except.error Err.internal

/-- ProvidedValue.get_value (util.py lines 56-61): a bare value is returned;
a task's result is returned only if the task has already completed, otherwise
`SyncAsyncMismatch()` (with no interface argument) is raised. -/
def PValue.get_value {V : Type} (tasks : List (Future V)) : PValue V → Except Err V
  | .bare v => .ok v
  | .task id =>
    match tasks[id]? with
    | none => .error Err.internal
    | some f => if f.done then .ok f.result else .error (Err.mismatch none)

/-- Marks the task `id` as completed (the effect of awaiting it). -/
def markDone {V : Type} (tasks : List (Future V)) (id : Nat) : List (Future V) :=
  match tasks[id]? with
  | none => tasks
  | some f => tasks.set id { f with done := true }

/-- ProvidedValue.aget_value (util.py lines 63-66): a bare value is returned
immediately; a task is awaited (completing it) and its result returned. -/
def PValue.aget_value {V : Type} (tasks : List (Future V)) :
    PValue V → Except Err (V × List (Future V))
  | .bare v => .ok (v, tasks)
  | .task id =>
    match tasks[id]? with
    | none => .error Err.internal
    | some f => .ok (f.result, markDone tasks id)

/-- Insertion step of the sort used to model Python `sorted`. -/
def insertSorted {α : Type} (le : α → α → Bool) (a : α) : List α → List α
  | [] => [a]
  | b :: rest => if le a b then a :: b :: rest else b :: insertSorted le a rest

/-- Structurally recursive sort modelling Python `sorted` (the positions /
member names being sorted are pairwise distinct, so any correct sort produces
the same list as Python's). -/
def sortBy {α : Type} (le : α → α → Bool) : List α → List α
  | [] => []
  | a :: rest => insertSorted le a (sortBy le rest)

/-- Orders (position, value) pairs by position, as `sorted(ready)` does in
util.py line 80 (positions come from `enumerate` and are pairwise distinct,
so tuple comparison never reaches the second component). -/
def sortByPos {α : Type} : List (Nat × α) → List (Nat × α) :=
  sortBy fun a b => decide (a.1 ≤ b.1)

/-- Sequential mapping in the `Except` monad, stopping at the first raised
exception (the evaluation order of a Python loop or comprehension). -/
def mapE {α β : Type} (f : α → Except Err β) : List α → Except Err (List β)
  | [] => .ok []
  | a :: rest =>
    match f a with
    | .error e => .error e
    | .ok b =>
      match mapE f rest with
      | .error e => .error e
      | .ok bs => .ok (b :: bs)

/-- Awaits one gathered pending entry `(position, task id)`, yielding
`(position, result)` (the pairing `zip(positions, await gather(*awaitables))`
of util.py line 79). -/
def gatherOne {V : Type} (tasks : List (Future V)) (pi : Nat × Nat) :
    Except Err (Nat × V) :=
  match tasks[pi.2]? with
  | some f => Except.ok (pi.1, f.result)
  | none => Except.error Err.internal

/-- Classifies one enumerated input as pending: `(position, task id)` for a
task, dropped otherwise (the `if value.type_ == "task"` arm of util.py
lines 72-76). -/
def pendEntry {V : Type} (pv : Nat × PValue V) : Option (Nat × Nat) :=
  match pv.2 with
  | .task id => some (pv.1, id)
  | .bare _ => none

/-- Classifies one enumerated input as ready: `(position, value)` for a bare
value, dropped otherwise (the `else` arm of util.py lines 72-76). -/
def readyEntry {V : Type} (pv : Nat × PValue V) : Option (Nat × V) :=
  match pv.2 with
  | .bare v => some (pv.1, v)
  | .task _ => none

/-- ProvidedValue.aget_multiple (util.py lines 68-80): enumerate the inputs,
partition into pending tasks and ready values keeping positions, gather the
pending ones concurrently (completing their tasks), then return all resulting
values sorted back into the original input order. -/
def PValue.aget_multiple {V : Type} (tasks : List (Future V)) (values : List (PValue V)) :
    Except Err (List V × List (Future V)) :=
  let pend := values.enum.filterMap pendEntry
  let ready := values.enum.filterMap readyEntry
  match mapE (gatherOne tasks) pend with
  | .error e => .error e
  | .ok gathered =>
    let tasks2 := pend.foldl (fun ts pi => markDone ts pi.2) tasks
    Except.ok ((sortByPos (ready ++ gathered)).map Prod.snd, tasks2)

/-- Provider (provider.py): constant, synchronous callable, or asynchronous
callable.  A callable's callee is modelled as a function from the list of its
dependency values (in declaration order) to the produced value. -/
inductive Provider (V : Type) where
  | const (iface : Iface) (value : V)
  | callable (iface : Iface) (deps : List (String × Iface)) (callee : List V → V)
  | asyncCallable (iface : Iface) (deps : List (String × Iface)) (callee : List V → V)

/-- Provider.interface. -/
def Provider.interface {V : Type} : Provider V → Iface
  | .const i _ => i
  | .callable i _ _ => i
  | .asyncCallable i _ _ => i

/-- Provider.dependencies (`ConstProvider.dependencies = []`, a callable's are
extracted from its parameter list). -/
def Provider.dependencies {V : Type} : Provider V → List (String × Iface)
  | .const _ _ => []
  | .callable _ ds _ => ds
  | .asyncCallable _ ds _ => ds

/-- Provider.is_async (provider.py lines 17-19 and 64-66). -/
def Provider.is_async {V : Type} : Provider V → Bool
  | .const _ _ => false
  | .callable _ _ _ => false
  | .asyncCallable _ _ _ => true

/-- Mutable state of one Injector: the Resolver's memo map `resolved`
(injector.py line 105), the asyncio task store, and a ghost log of the
interfaces whose provider production was invoked/scheduled, in order. -/
structure St (V : Type) where
  resolved : List (Iface × PValue V)
  tasks : List (Future V)
  log : List Iface
deriving DecidableEq, Repr

/-- The empty initial state of a fresh Injector. -/
def St.empty {V : Type} : St V := ⟨[], [], []⟩

/-- Resolver.is_resolved (injector.py lines 130-131). -/
def is_resolved {V : Type} (st : St V) (i : Iface) : Bool :=
  (lookupA st.resolved i).isSome

/-- Resolver.has_unresolved_deps (injector.py lines 107-108). -/
def has_unresolved_deps {V : Type} (st : St V) (p : Provider V) : Bool :=
  p.dependencies.any fun d => !(is_resolved st d.2)

/-- Resolver.first_unresolved_dep (injector.py lines 124-125): the first
dependency in declaration order not yet in the memo map. -/
def first_unresolved_dep {V : Type} (st : St V) (p : Provider V) : Option Iface :=
  (p.dependencies.find? fun d => !(is_resolved st d.2)).map Prod.snd

/-- Resolver.get_provided (injector.py lines 127-128): read the memo map;
a missing key is a Python `KeyError`. -/
def get_provided {V : Type} (st : St V) (i : Iface) : Except Err (PValue V) :=
  match lookupA st.resolved i with
  | some pv => Except.ok pv
  | none => Except.error Err.internal

/-- Collects `{name: self.resolved[dep] for name, dep in provider.dependencies}`
(injector.py lines 111 and 117); a missing dependency is a Python `KeyError`,
unreachable when the walker's precondition holds. -/
def depValues {V : Type} (st : St V) (p : Provider V) : Except Err (List (PValue V)) :=
  mapE (fun d => get_provided st d.2) p.dependencies

/-- Resolver.provide (injector.py lines 110-114): gather the dependencies'
ProvidedValues, raise `SyncAsyncMismatch(provider.interface)` if the provider
is asynchronous (the `asyncCallable` branch here is exactly the
`provider.is_async` test), otherwise invoke the provider — for a callable this
unwraps each ProvidedValue argument with `get_value` (provider.py lines 42-46,
which can itself raise a bare `SyncAsyncMismatch()`), then calls the callee —
and store the result in the memo map under the provider's interface. -/
def provide {V : Type} (st : St V) (p : Provider V) : Except Err (St V) :=
  match depValues st p with
  | .error e => .error e
  | .ok pvs =>
    match p with
    | .asyncCallable i _ _ => .error (Err.mismatch (some i))
    | .const i v =>
      .ok { st with resolved := insertA st.resolved i (PValue.bare v),
                    log := st.log ++ [i] }
    | .callable i _ f =>
      match mapE (PValue.get_value st.tasks) pvs with
      | .error e => .error e
      | .ok vals =>
        .ok { st with resolved := insertA st.resolved i (PValue.bare (f vals)),
                      log := st.log ++ [i] }

/-- Resolver.aprovide (injector.py lines 116-122).  For a synchronous provider
the dependency values are fetched via `aget_multiple` (awaiting completes
their tasks) and the callee receives raw values; for an asynchronous provider
the ProvidedValues are passed through and `create_task(run_provider())`
(provider.py lines 55-62) appends a new Future holding the eventual result —
the callee applied to the dependencies' eventual values — with
`done := false`: the Pending value is stored before the computation runs. -/
def aprovide {V : Type} (st : St V) (p : Provider V) : Except Err (St V) :=
  match depValues st p with
  | .error e => .error e
  | .ok pvs =>
    match p with
    | .const i v =>
      .ok { st with resolved := insertA st.resolved i (PValue.bare v),
                    log := st.log ++ [i] }
    | .callable i _ f =>
      match PValue.aget_multiple st.tasks pvs with
      | .error e => .error e
      | .ok (vals, tasks2) =>
        .ok { st with resolved := insertA st.resolved i (PValue.bare (f vals)),
                      tasks := tasks2, log := st.log ++ [i] }
    | .asyncCallable i _ f =>
      match mapE (eventualE st.tasks) pvs with
      | .error e => .error e
      | .ok evs =>
        .ok { st with resolved := insertA st.resolved i (PValue.task st.tasks.length),
                      tasks := st.tasks ++ [⟨f evs, false⟩],
                      log := st.log ++ [i] }

/-- Provider registry (`ProviderDict`), an interface-keyed association list. -/
abbrev Reg (V : Type) := List (Iface × Provider V)

/-- Outcome of a walker run: success, an exception (with the state at the
moment it was raised — Python leaves the injector's state in place when an
exception propagates), or fuel exhaustion (the Python loop has no bound; fuel
only makes the model total). -/
inductive WalkRes (V : Type) where
  | ok (st : St V)
  | err (e : Err) (st : St V)
  | fuelOut (st : St V)
deriving DecidableEq, Repr

/-- State carried by a walker outcome, whatever the outcome was. -/
def WalkRes.state {V : Type} : WalkRes V → St V
  | .ok st => st
  | .err _ st => st
  | .fuelOut st => st

/-- The while loop shared by Injector._walk_dependencies and
Injector._awalk_dependencies (injector.py lines 60-67 and 73-80, identical
apart from the per-provider provisioning action `step`, which is `provide`
for the sync walk and `aprovide` for the async walk).  The stack's top is the
list head.  Looking up the top interface in the registry raises
`ProviderMissing` when absent (injector.py lines 96-100).  When the provider
has an unresolved dependency, the first one in declaration order is pushed,
after `ResolutionStack.append`'s membership test against the whole current
stack raises `CircularDependency` if it is already present (injector.py lines
84-88); otherwise the provider is provisioned and popped.  (Branching on
`first_unresolved_dep` directly coincides with the source's
`has_unresolved_deps` test; see `has_unresolved_deps_iff`.) -/
def loopWith {V : Type} (step : St V → Provider V → Except Err (St V)) (reg : Reg V) :
    Nat → List Iface → St V → WalkRes V
  | 0, _, st => .fuelOut st
  | _ + 1, [], st => .ok st
  | fuel + 1, top :: rest, st =>
    match lookupA reg top with
    | none => .err (Err.missing top) st
    | some p =>
      match first_unresolved_dep st p with
      | some d =>
        if d ∈ top :: rest then .err (Err.circular d) st
        else loopWith step reg fuel (d :: top :: rest) st
      | none =>
        match step st p with
        | .error e => .err e st
        | .ok st2 => loopWith step reg fuel rest st2

/-- The while loop of Injector._walk_dependencies (injector.py lines 60-67). -/
def walkLoop {V : Type} (reg : Reg V) : Nat → List Iface → St V → WalkRes V :=
  loopWith provide reg

/-- The while loop of Injector._awalk_dependencies (injector.py lines 73-80):
identical to `walkLoop` except each provider is provisioned via `aprovide`. -/
def awalkLoop {V : Type} (reg : Reg V) : Nat → List Iface → St V → WalkRes V :=
  loopWith aprovide reg

/-- Injector._walk_dependencies (injector.py lines 56-67): return immediately
if the interface is already resolved, else run the stack loop from a
single-element stack. -/
def walk_dependencies {V : Type} (fuel : Nat) (reg : Reg V) (i : Iface) (st : St V) :
    WalkRes V :=
  if is_resolved st i then .ok st else walkLoop reg fuel [i] st

/-- Injector._awalk_dependencies (injector.py lines 69-80). -/
def awalk_dependencies {V : Type} (fuel : Nat) (reg : Reg V) (i : Iface) (st : St V) :
    WalkRes V :=
  if is_resolved st i then .ok st else awalkLoop reg fuel [i] st

/-- Outcome of a facade operation: a result value plus the post-state, or an
exception with the state at the point it was raised, or fuel exhaustion. -/
inductive Res (α : Type) (V : Type) where
  | ok (a : α) (st : St V)
  | err (e : Err) (st : St V)
  | fuelOut (st : St V)
deriving DecidableEq, Repr

/-- State carried by a facade outcome. -/
def Res.state {α V : Type} : Res α V → St V
  | .ok _ st => st
  | .err _ st => st
  | .fuelOut st => st

/-- Injector.get (injector.py lines 48-50): walk the interface's dependencies,
then read the final value with `get_provided(...).get_value()`. -/
def get {V : Type} (fuel : Nat) (reg : Reg V) (i : Iface) (st : St V) : Res V V :=
  match walk_dependencies fuel reg i st with
  | .err e st2 => .err e st2
  | .fuelOut st2 => .fuelOut st2
  | .ok st2 =>
    match get_provided st2 i with
    | .error e => .err e st2
    | .ok pv =>
      match PValue.get_value st2.tasks pv with
      | .error e => .err e st2
      | .ok v => .ok v st2

/-- Injector.aget (injector.py lines 52-54): walk asynchronously, then await
the final value with `get_provided(...).aget_value()`. -/
def aget {V : Type} (fuel : Nat) (reg : Reg V) (i : Iface) (st : St V) : Res V V :=
  match awalk_dependencies fuel reg i st with
  | .err e st2 => .err e st2
  | .fuelOut st2 => .fuelOut st2
  | .ok st2 =>
    match get_provided st2 i with
    | .error e => .err e st2
    | .ok pv =>
      match PValue.aget_value st2.tasks pv with
      | .error e => .err e st2
      | .ok (v, tasks2) => .ok v { st2 with tasks := tasks2 }

/-- Consumer function for `call`/`acall`: its injectable dependencies as
extracted by `extract_dependencies` (util.py lines 14-20), and its body as a
function of the keyword arguments it is finally invoked with. -/
structure Fn (V : Type) where
  deps : List (String × Iface)
  body : List (String × V) → V

/-- The dict comprehension of Injector.call (injector.py lines 27-31):
resolve each dependency whose name is not overridden, in declaration order,
threading the injector state; returns the injected (name, value) pairs. -/
def injectLoop {V : Type} (fuel : Nat) (reg : Reg V) (ov : List (String × V)) :
    List (String × Iface) → St V → Res (List (String × V)) V
  | [], st => .ok [] st
  | d :: rest, st =>
    if (lookupA ov d.1).isSome then injectLoop fuel reg ov rest st
    else
      match get fuel reg d.2 st with
      | .err e st2 => .err e st2
      | .fuelOut st2 => .fuelOut st2
      | .ok v st2 =>
        match injectLoop fuel reg ov rest st2 with
        | .ok inj st3 => .ok ((d.1, v) :: inj) st3
        | .err e st3 => .err e st3
        | .fuelOut st3 => .fuelOut st3

/-- Injector.call (injector.py lines 26-32): build the injected keyword
arguments for the non-overridden dependencies, then invoke
`f(**kwargs, **injected)`. -/
def call {V : Type} (fuel : Nat) (reg : Reg V) (f : Fn V) (ov : List (String × V))
    (st : St V) : Res V V :=
  match injectLoop fuel reg ov f.deps st with
  | .ok inj st2 => .ok (f.body (ov ++ inj)) st2
  | .err e st2 => .err e st2
  | .fuelOut st2 => .fuelOut st2

/-- The `for iface in interfaces: await self._awalk_dependencies(iface)` loop
of Injector.acall (injector.py lines 42-43). -/
def awalkMany {V : Type} (fuel : Nat) (reg : Reg V) : List Iface → St V → WalkRes V
  | [], st => .ok st
  | i :: rest, st =>
    match awalk_dependencies fuel reg i st with
    | .ok st2 => awalkMany fuel reg rest st2
    | .err e st2 => .err e st2
    | .fuelOut st2 => .fuelOut st2

/-- Injector.acall (injector.py lines 34-46):
`names, interfaces = list(zip(*[(n, i) for n, i in deps if n not in kwargs]))`
raises `ValueError` (modelled as `Err.unpack`) when the filtered list is
empty, since an empty list cannot be unpacked into the two tuples; otherwise
each interface's dependencies are walked in order, the stored ProvidedValues
are fetched and awaited together via `aget_multiple`, and
`f(**kwargs, **injected)` is invoked. -/
def acall {V : Type} (fuel : Nat) (reg : Reg V) (f : Fn V) (ov : List (String × V))
    (st : St V) : Res V V :=
  let kept := f.deps.filter fun d => (lookupA ov d.1).isNone
  if kept.isEmpty then .err Err.unpack st
  else
    match awalkMany fuel reg (kept.map Prod.snd) st with
    | .err e st2 => .err e st2
    | .fuelOut st2 => .fuelOut st2
    | .ok st2 =>
      match mapE (get_provided st2) (kept.map Prod.snd) with
      | .error e => .err e st2
      | .ok pvs =>
        match PValue.aget_multiple st2.tasks pvs with
        | .error e => .err e st2
        | .ok (vals, tasks2) =>
          .ok (f.body (ov ++ (kept.map Prod.fst).zip vals)) { st2 with tasks := tasks2 }

/-- Raw declaration passed to the Injector constructor: either something that
`_make_provider` (injector.py lines 134-141) turns into a single provider — a
plain value, a callable, or a pre-built Provider, all of which deterministically
yield one `Provider` — or a Module subclass grouping named members. -/
inductive Decl (V : Type) where
  | atom (p : Provider V)
  | module (members : List (String × Decl V))

/-- Code-point lexicographic comparison of identifier characters, the order
Python uses when comparing strings. -/
def charsLe : List Char → List Char → Bool
  | [], _ => true
  | _ :: _, [] => false
  | a :: as, b :: bs =>
    if a.toNat < b.toNat then true
    else if b.toNat < a.toNat then false
    else charsLe as bs

/-- Code-point lexicographic order on identifier strings. -/
def nameLe (a b : String) : Bool :=
  charsLe a.data b.data

/-- Members of a module are listed by Python `dir()`, which sorts attribute
names; names are compared code-point lexicographically, as Python does. -/
def byNameLe {α : Type} (a b : String × α) : Bool :=
  nameLe a.1 b.1

/-- Is the member name underscore-prefixed (skipped by `_make_providers`,
injector.py line 147)? -/
def isPrivateName (n : String) : Bool :=
  n.front == '_'

mutual

/-- Injector._make_providers (injector.py lines 144-150): a non-module
declaration yields its single provider; a module yields, recursively, the
providers of its non-underscore members in `dir()` order — i.e. sorted by
member name, not in declaration order.  (Each member is expanded and the
(name, expansion) pairs are then ordered by name; since member names of a
Python class are pairwise distinct and the sort only inspects names, this is
the same list as sorting the names first and then expanding.) -/
def Decl.expand {V : Type} : Decl V → List (Provider V)
  | .atom p => [p]
  | .module ms => (sortBy byNameLe (Decl.expandMembers ms)).flatMap Prod.snd

/-- Expansion of a module's member list: skip underscore-prefixed names,
expand every other member. -/
def Decl.expandMembers {V : Type} :
    List (String × Decl V) → List (String × List (Provider V))
  | [] => []
  | m :: rest =>
    if isPrivateName m.1 then Decl.expandMembers rest
    else (m.1, Decl.expand m.2) :: Decl.expandMembers rest

end

/-- Injector._make_provider_dict (injector.py lines 153-158): build the
registry dict from `(provider.interface, provider)` pairs in expansion order;
a later pair for the same interface overwrites the earlier one. -/
def make_provider_dict {V : Type} (ds : List (Decl V)) : Reg V :=
  (ds.flatMap Decl.expand).foldl (fun reg p => insertA reg p.interface p) []

/-- Every registry entry maps an interface to a provider producing exactly that
interface.  `_make_provider_dict` keys every provider by its own `interface`
attribute, so every registry the Python constructor builds satisfies this (see
`make_provider_dict_wellKeyed`). -/
def Reg.wellKeyed {V : Type} (reg : Reg V) : Bool :=
  reg.all fun kp => kp.2.interface == kp.1

/-- Interface named by an exception, when it names one (`CircularDependency`,
`ProviderMissing` and the resolver-level `SyncAsyncMismatch` carry the
interface; the `get_value`-level `SyncAsyncMismatch()` carries none). -/
def Err.namedIface : Err → Option Iface
  | .circular i => some i
  | .missing i => some i
  | .mismatch oi => oi
  | _ => none

/- ------------------------------------------------------------------ -/
/- Supporting lemmas                                                   -/
/- ------------------------------------------------------------------ -/

theorem lookupA_insertA_self {κ α : Type} [DecidableEq κ] (m : List (κ × α)) (i : κ) (a : α) :
    lookupA (insertA m i a) i = some a := by
  induction m with
  | nil => simp [insertA, lookupA]
  | cons kb rest ih =>
    by_cases h : kb.1 = i
    · simp [insertA, lookupA, h]
    · simp [insertA, lookupA, h, ih]

theorem lookupA_insertA_ne {κ α : Type} [DecidableEq κ] (m : List (κ × α)) {i j : κ}
    (a : α) (h : j ≠ i) : lookupA (insertA m i a) j = lookupA m j := by
  induction m with
  | nil =>
    simp only [insertA, lookupA]
    exact if_neg fun he => h he.symm
  | cons kb rest ih =>
    obtain ⟨k, b⟩ := kb
    by_cases hk : k = i
    · subst hk
      simp [insertA, lookupA, Ne.symm h]
    · simp only [insertA, hk, if_false, lookupA, ih]

theorem lookupA_append_left {κ α : Type} [DecidableEq κ] {m1 : List (κ × α)}
    (m2 : List (κ × α)) {k : κ} {a : α} (h : lookupA m1 k = some a) :
    lookupA (m1 ++ m2) k = some a := by
  induction m1 with
  | nil => simp [lookupA] at h
  | cons kb rest ih =>
    by_cases hk : kb.1 = k
    · simpa [lookupA, hk] using h
    · simp only [lookupA, hk, if_false] at h ⊢
      exact ih h

theorem wellKeyed_interface {V : Type} {reg : Reg V} (hreg : Reg.wellKeyed reg = true)
    {i : Iface} {p : Provider V} (h : lookupA reg i = some p) : p.interface = i := by
  induction reg with
  | nil => simp [lookupA] at h
  | cons kp rest ih =>
    simp only [Reg.wellKeyed, List.all_cons, Bool.and_eq_true, beq_iff_eq] at hreg
    by_cases hk : kp.1 = i
    · simp only [lookupA, hk, if_true] at h
      have hp : kp.2 = p := Option.some.inj h
      rw [← hp, hreg.1, hk]
    · simp only [lookupA, hk, if_false] at h
      exact ih (by simpa [Reg.wellKeyed] using hreg.2) h

theorem wellKeyed_insertA {V : Type} {reg : Reg V} (h : Reg.wellKeyed reg = true)
    (p : Provider V) : Reg.wellKeyed (insertA reg p.interface p) = true := by
  induction reg with
  | nil => simp [insertA, Reg.wellKeyed]
  | cons kp rest ih =>
    obtain ⟨k, b⟩ := kp
    rw [Reg.wellKeyed, List.all_cons, Bool.and_eq_true, beq_iff_eq] at h
    rw [insertA]
    by_cases hk : k = p.interface
    · rw [if_pos hk, Reg.wellKeyed, List.all_cons, Bool.and_eq_true, beq_iff_eq]
      exact ⟨hk.symm, h.2⟩
    · rw [if_neg hk, Reg.wellKeyed, List.all_cons, Bool.and_eq_true, beq_iff_eq]
      exact ⟨h.1, ih h.2⟩

/-- Every registry `_make_provider_dict` builds is well-keyed: the dict is
populated only with `(provider.interface, provider)` pairs (injector.py
lines 153-158). -/
theorem make_provider_dict_wellKeyed {V : Type} (ds : List (Decl V)) :
    Reg.wellKeyed (make_provider_dict ds) = true := by
  unfold make_provider_dict
  suffices h : ∀ (l : List (Provider V)) (acc : Reg V), Reg.wellKeyed acc = true →
      Reg.wellKeyed (l.foldl (fun reg p => insertA reg p.interface p) acc) = true by
    exact h _ [] rfl
  intro l
  induction l with
  | nil =>
    intro acc h
    exact h
  | cons p rest ih =>
    intro acc h
    exact ih _ (wellKeyed_insertA h p)

theorem has_unresolved_deps_iff {V : Type} (st : St V) (p : Provider V) :
    has_unresolved_deps st p = (first_unresolved_dep st p).isSome := by
  rw [has_unresolved_deps, first_unresolved_dep]
  cases hfind : List.find? (fun d => !is_resolved st d.2) p.dependencies with
  | none =>
    simp only [Option.map_none', Option.isSome_none]
    rw [List.any_eq_false]
    intro d hd
    have := List.find?_eq_none.mp hfind d hd
    simpa using this
  | some pair =>
    simp only [Option.map_some', Option.isSome_some]
    rw [List.any_eq_true]
    have hp := List.find?_some hfind
    exact ⟨pair, List.mem_of_find?_eq_some hfind, hp⟩

theorem first_unresolved_dep_unresolved {V : Type} {st : St V} {p : Provider V}
    {d : Iface} (h : first_unresolved_dep st p = some d) : is_resolved st d = false := by
  simp only [first_unresolved_dep, Option.map_eq_some'] at h
  obtain ⟨pair, hfind, hsnd⟩ := h
  have := List.find?_some hfind
  simpa [hsnd] using this

theorem is_resolved_false_iff {V : Type} (st : St V) (i : Iface) :
    is_resolved st i = false ↔ lookupA st.resolved i = none := by
  unfold is_resolved
  cases lookupA st.resolved i <;> simp

theorem mapE_error_pred {α β : Type} {f : α → Except Err β} {P : Err → Prop}
    (hf : ∀ a e, f a = Except.error e → P e) :
    ∀ {l : List α} {e : Err}, mapE f l = Except.error e → P e := by
  intro l
  induction l with
  | nil =>
    intro e h
    cases h
  | cons a rest ih =>
    intro e h
    rw [mapE] at h
    cases hfa : f a <;> rw [hfa] at h
    · cases h
      exact hf a _ hfa
    · cases hr : mapE f rest <;> rw [hr] at h
      · cases h
        exact ih hr
      · cases h

theorem provide_ok_spec {V : Type} {st st' : St V} {p : Provider V}
    (h : provide st p = Except.ok st') :
    ∃ pv, st'.resolved = insertA st.resolved p.interface pv ∧
      st'.tasks = st.tasks ∧ st'.log = st.log ++ [p.interface] := by
  unfold provide at h
  cases hd : depValues st p <;> rw [hd] at h <;> dsimp only at h
  · cases h
  · cases p with
    | const i v =>
      dsimp only at h
      cases h
      exact ⟨PValue.bare v, rfl, rfl, rfl⟩
    | callable i ds f =>
      dsimp only at h
      rename_i pvs
      cases hm : mapE (PValue.get_value st.tasks) pvs <;> rw [hm] at h <;>
        dsimp only at h
      · cases h
      · cases h
        exact ⟨_, rfl, rfl, rfl⟩
    | asyncCallable i ds f =>
      dsimp only at h
      cases h

theorem depValues_error_internal {V : Type} {st : St V} {p : Provider V} {e : Err}
    (h : depValues st p = Except.error e) : e = Err.internal := by
  unfold depValues at h
  refine mapE_error_pred (P := fun x => x = Err.internal) ?_ h
  intro d e2 hd
  unfold get_provided at hd
  cases hl : lookupA st.resolved d.2 <;> rw [hl] at hd <;> dsimp only at hd
  · cases hd
    rfl
  · cases hd

theorem get_value_error_unnamed {V : Type} {tasks : List (Future V)} {pv : PValue V}
    {e : Err} (h : PValue.get_value tasks pv = Except.error e) : e.namedIface = none := by
  cases pv with
  | bare v => cases h
  | task id =>
    rw [PValue.get_value] at h
    cases ht : tasks[id]? <;> rw [ht] at h <;> dsimp only at h
    · cases h
      rfl
    · rename_i f
      obtain ⟨r, d⟩ := f
      cases d <;> dsimp only at h
      · cases h
        rfl
      · cases h

theorem provide_error_named {V : Type} {st : St V} {p : Provider V} {e : Err}
    (h : provide st p = Except.error e) :
    e.namedIface = none ∨ e.namedIface = some p.interface := by
  unfold provide at h
  cases hd : depValues st p <;> rw [hd] at h <;> dsimp only at h
  · cases h
    exact Or.inl (by rw [depValues_error_internal hd]; rfl)
  · cases p with
    | const i v =>
      dsimp only at h
      cases h
    | callable i ds f =>
      dsimp only at h
      rename_i pvs
      cases hm : mapE (PValue.get_value st.tasks) pvs <;> rw [hm] at h <;>
        dsimp only at h
      · cases h
        exact Or.inl (mapE_error_pred
          (P := fun x => x.namedIface = none)
          (fun _ _ hg => get_value_error_unnamed hg) hm)
      · cases h
    | asyncCallable i ds f =>
      dsimp only at h
      cases h
      right
      rfl

theorem gatherOne_error_internal {V : Type} {tasks : List (Future V)}
    {pi : Nat × Nat} {e : Err} (h : gatherOne tasks pi = Except.error e) :
    e = Err.internal := by
  unfold gatherOne at h
  cases ht : tasks[pi.2]? <;> rw [ht] at h <;> dsimp only at h
  · cases h
    rfl
  · cases h

theorem aget_multiple_error_internal {V : Type} {tasks : List (Future V)}
    {values : List (PValue V)} {e : Err}
    (h : PValue.aget_multiple tasks values = Except.error e) : e = Err.internal := by
  unfold PValue.aget_multiple at h
  dsimp only at h
  split at h
  · cases h
    rename_i hm
    exact mapE_error_pred (P := fun x => x = Err.internal)
      (fun _ _ hg => gatherOne_error_internal hg) hm
  · cases h

theorem aprovide_ok_spec {V : Type} {st st' : St V} {p : Provider V}
    (h : aprovide st p = Except.ok st') :
    ∃ pv, st'.resolved = insertA st.resolved p.interface pv ∧
      st'.log = st.log ++ [p.interface] := by
  unfold aprovide at h
  cases hd : depValues st p <;> rw [hd] at h <;> dsimp only at h
  · cases h
  · cases p with
    | const i v =>
      dsimp only at h
      cases h
      exact ⟨PValue.bare v, rfl, rfl⟩
    | callable i ds f =>
      dsimp only at h
      rename_i pvs
      cases hm : PValue.aget_multiple st.tasks pvs <;> rw [hm] at h <;>
        dsimp only at h
      · cases h
      · rename_i pair
        obtain ⟨vals, tasks2⟩ := pair
        dsimp only at h
        cases h
        exact ⟨_, rfl, rfl⟩
    | asyncCallable i ds f =>
      dsimp only at h
      rename_i pvs
      cases hm : mapE (eventualE st.tasks) pvs <;> rw [hm] at h <;> dsimp only at h
      · cases h
      · cases h
        exact ⟨_, rfl, rfl⟩

theorem aprovide_error_internal {V : Type} {st : St V} {p : Provider V} {e : Err}
    (h : aprovide st p = Except.error e) : e = Err.internal := by
  unfold aprovide at h
  cases hd : depValues st p <;> rw [hd] at h <;> dsimp only at h
  · cases h
    exact depValues_error_internal hd
  · cases p with
    | const i v =>
      dsimp only at h
      cases h
    | callable i ds f =>
      dsimp only at h
      rename_i pvs
      cases hm : PValue.aget_multiple st.tasks pvs <;> rw [hm] at h <;>
        dsimp only at h
      · cases h
        exact aget_multiple_error_internal hm
      · rename_i pair
        obtain ⟨vals, tasks2⟩ := pair
        dsimp only at h
        cases h
    | asyncCallable i ds f =>
      dsimp only at h
      rename_i pvs
      cases hm : mapE (eventualE st.tasks) pvs <;> rw [hm] at h <;> dsimp only at h
      · cases h
        refine mapE_error_pred (P := fun x => x = Err.internal) ?_ hm
        intro pv e2 hev
        unfold eventualE at hev
        cases hv : PValue.eventual st.tasks pv <;> rw [hv] at hev <;> dsimp only at hev
        · cases hev
          rfl
        · cases hev
      · cases h

/-- The provisioning step stores exactly one new memo entry, keyed by the
provider's interface (shared shape of `provide` and `aprovide`). -/
def StepInserts {V : Type} (step : St V → Provider V → Except Err (St V)) : Prop :=
  ∀ st st' (p : Provider V), step st p = Except.ok st' →
    ∃ pv, st'.resolved = insertA st.resolved p.interface pv

theorem provide_stepInserts {V : Type} : StepInserts (V := V) provide := by
  intro st st' p h
  obtain ⟨pv, hres, _, _⟩ := provide_ok_spec h
  exact ⟨pv, hres⟩

theorem aprovide_stepInserts {V : Type} : StepInserts (V := V) aprovide := by
  intro st st' p h
  obtain ⟨pv, hres, _⟩ := aprovide_ok_spec h
  exact ⟨pv, hres⟩

theorem loopWith_preserves {V : Type} {step : St V → Provider V → Except Err (St V)}
    (hstep : StepInserts step) {reg : Reg V} (hreg : Reg.wellKeyed reg = true) :
    ∀ fuel stack (st : St V), stack.Nodup →
      (∀ s ∈ stack, is_resolved st s = false) →
      ∀ j pv, lookupA st.resolved j = some pv →
        lookupA (loopWith step reg fuel stack st).state.resolved j = some pv := by
  intro fuel
  induction fuel with
  | zero =>
    intro stack st _ _ j pv hj
    simpa [loopWith, WalkRes.state] using hj
  | succ fuel ih =>
    intro stack st hnd hun j pv hj
    match stack with
    | [] => simpa [loopWith, WalkRes.state] using hj
    | top :: rest =>
      rw [loopWith]
      cases hp : lookupA reg top with
      | none => simpa [WalkRes.state] using hj
      | some p =>
        dsimp only
        cases hfd : first_unresolved_dep st p with
        | some d =>
          dsimp only
          by_cases hmem : d ∈ top :: rest
          · simpa [hmem, WalkRes.state] using hj
          · rw [if_neg hmem]
            refine ih (d :: top :: rest) st ?_ ?_ j pv hj
            · exact List.nodup_cons.mpr ⟨hmem, hnd⟩
            · intro s hs
              rcases List.mem_cons.mp hs with hsd | hsr
              · rw [hsd]
                exact first_unresolved_dep_unresolved hfd
              · exact hun s hsr
        | none =>
          dsimp only
          cases hs : step st p with
          | error e => simpa [WalkRes.state] using hj
          | ok st2 =>
            dsimp only
            have htop : lookupA st.resolved top = none :=
              (is_resolved_false_iff st top).mp (hun top (List.mem_cons_self top rest))
            obtain ⟨pv2, hres2⟩ := hstep st st2 p hs
            have hiface : p.interface = top := wellKeyed_interface hreg hp
            have htopne : top ∉ rest := (List.nodup_cons.mp hnd).1
            refine ih rest st2 (List.nodup_cons.mp hnd).2 ?_ j pv ?_
            · intro s hsr
              rw [is_resolved_false_iff, hres2, hiface,
                lookupA_insertA_ne _ _ (fun hst => htopne (by rw [← hst]; exact hsr))]
              exact (is_resolved_false_iff st s).mp (hun s (List.mem_cons_of_mem top hsr))
            · have hjne : j ≠ top := fun hj2 => by
                rw [hj2, htop] at hj
                cases hj
              rw [hres2, hiface, lookupA_insertA_ne _ _ hjne]
              exact hj

theorem loopWith_nil_ne_err {V : Type} {step : St V → Provider V → Except Err (St V)}
    {reg : Reg V} {fuel : Nat} {st : St V} {e : Err} {st' : St V} :
    loopWith step reg fuel [] st ≠ .err e st' := by
  cases fuel <;> intro h <;> cases h

theorem loopWith_err_unresolved {V : Type} {step : St V → Provider V → Except Err (St V)}
    (hstep : StepInserts step)
    (hname : ∀ (st : St V) p e, step st p = Except.error e →
      e.namedIface = none ∨ e.namedIface = some p.interface)
    {reg : Reg V} (hreg : Reg.wellKeyed reg = true) :
    ∀ fuel stack (st : St V) e st', stack.Nodup →
      (∀ s ∈ stack, is_resolved st s = false) →
      loopWith step reg fuel stack st = .err e st' →
      (∀ b, stack.getLast? = some b → is_resolved st' b = false) ∧
      (∀ j, e.namedIface = some j → is_resolved st' j = false) := by
  intro fuel
  induction fuel with
  | zero =>
    intro stack st e st' _ _ h
    cases h
  | succ fuel ih =>
    intro stack st e st' hnd hun h
    match stack with
    | [] =>
      rw [loopWith] at h
      cases h
    | top :: rest =>
      rw [loopWith] at h
      cases hp : lookupA reg top with
      | none =>
        rw [hp] at h
        dsimp only at h
        cases h
        constructor
        · intro b hb
          exact hun b (List.mem_of_mem_getLast? hb)
        · intro j hj
          cases hj
          exact hun top (List.mem_cons_self top rest)
      | some p =>
        rw [hp] at h
        dsimp only at h
        cases hfd : first_unresolved_dep st p with
        | some d =>
          rw [hfd] at h
          dsimp only at h
          by_cases hmem : d ∈ top :: rest
          · rw [if_pos hmem] at h
            cases h
            constructor
            · intro b hb
              exact hun b (List.mem_of_mem_getLast? hb)
            · intro j hj
              cases hj
              exact first_unresolved_dep_unresolved hfd
          · rw [if_neg hmem] at h
            have hun2 : ∀ s ∈ d :: top :: rest, is_resolved st s = false := by
              intro s hs
              rcases List.mem_cons.mp hs with hsd | hsr
              · rw [hsd]
                exact first_unresolved_dep_unresolved hfd
              · exact hun s hsr
            have := ih (d :: top :: rest) st e st' (List.nodup_cons.mpr ⟨hmem, hnd⟩)
              hun2 h
            refine ⟨?_, this.2⟩
            intro b hb
            exact this.1 b (by rw [List.getLast?_cons_cons]; exact hb)
        | none =>
          rw [hfd] at h
          dsimp only at h
          cases hs : step st p with
          | error e2 =>
            rw [hs] at h
            dsimp only at h
            cases h
            constructor
            · intro b hb
              exact hun b (List.mem_of_mem_getLast? hb)
            · intro j hj
              rcases hname st p _ hs with hn | hn
              · rw [hn] at hj
                cases hj
              · rw [hn] at hj
                cases hj
                rw [wellKeyed_interface hreg hp]
                exact hun top (List.mem_cons_self top rest)
          | ok st2 =>
            rw [hs] at h
            dsimp only at h
            match rest with
            | [] => exact absurd h loopWith_nil_ne_err
            | r :: rs =>
              have htopne : top ∉ r :: rs := (List.nodup_cons.mp hnd).1
              obtain ⟨pv2, hres2⟩ := hstep st st2 p hs
              have hiface : p.interface = top := wellKeyed_interface hreg hp
              have hun2 : ∀ s ∈ r :: rs, is_resolved st2 s = false := by
                intro s hsr
                rw [is_resolved_false_iff, hres2, hiface,
                  lookupA_insertA_ne _ _ (fun hst => htopne (by rw [← hst]; exact hsr))]
                exact (is_resolved_false_iff st s).mp
                  (hun s (List.mem_cons_of_mem top hsr))
              have := ih (r :: rs) st2 e st' (List.nodup_cons.mp hnd).2 hun2 h
              refine ⟨?_, this.2⟩
              intro b hb
              exact this.1 b (by rw [List.getLast?_cons_cons] at hb; exact hb)

theorem walk_dependencies_preserves {V : Type} {reg : Reg V}
    (hreg : Reg.wellKeyed reg = true) (fuel : Nat) (i : Iface) (st : St V)
    {j : Iface} {pv : PValue V} (hj : lookupA st.resolved j = some pv) :
    lookupA (walk_dependencies fuel reg i st).state.resolved j = some pv := by
  unfold walk_dependencies
  by_cases hres : is_resolved st i = true
  · simpa [hres, WalkRes.state] using hj
  · rw [if_neg hres]
    refine loopWith_preserves provide_stepInserts hreg fuel [i] st
      (List.nodup_singleton i) ?_ j pv hj
    intro s hs
    rw [List.mem_singleton.mp hs]
    exact Bool.eq_false_iff.mpr hres

theorem awalk_dependencies_preserves {V : Type} {reg : Reg V}
    (hreg : Reg.wellKeyed reg = true) (fuel : Nat) (i : Iface) (st : St V)
    {j : Iface} {pv : PValue V} (hj : lookupA st.resolved j = some pv) :
    lookupA (awalk_dependencies fuel reg i st).state.resolved j = some pv := by
  unfold awalk_dependencies
  by_cases hres : is_resolved st i = true
  · simpa [hres, WalkRes.state] using hj
  · rw [if_neg hres]
    refine loopWith_preserves aprovide_stepInserts hreg fuel [i] st
      (List.nodup_singleton i) ?_ j pv hj
    intro s hs
    rw [List.mem_singleton.mp hs]
    exact Bool.eq_false_iff.mpr hres

theorem get_provided_ok {V : Type} {st : St V} {i : Iface} {pv : PValue V}
    (h : get_provided st i = Except.ok pv) : lookupA st.resolved i = some pv := by
  unfold get_provided at h
  cases hl : lookupA st.resolved i <;> rw [hl] at h <;> dsimp only at h
  · cases h
  · cases h
    rfl

theorem get_ok_spec {V : Type} {fuel : Nat} {reg : Reg V} {i : Iface} {st : St V}
    {v : V} {st' : St V} (h : get fuel reg i st = .ok v st') :
    ∃ pv, lookupA st'.resolved i = some pv ∧
      PValue.get_value st'.tasks pv = Except.ok v := by
  unfold get at h
  cases hw : walk_dependencies fuel reg i st <;> rw [hw] at h <;> dsimp only at h
  case err e st2 => cases h
  case fuelOut st2 => cases h
  case ok st2 =>
    cases hg : get_provided st2 i <;> rw [hg] at h <;> dsimp only at h
    · cases h
    · rename_i pv
      cases hv : PValue.get_value st2.tasks pv <;> rw [hv] at h <;> dsimp only at h
      · cases h
      · cases h
        exact ⟨pv, get_provided_ok hg, hv⟩

/-- A second `get` of an interface whose first `get` succeeded returns the
identical cached value and leaves the state (including the invocation log)
untouched, with any fuel. -/
theorem get_resolved_idempotent {V : Type} {fuel fuel2 : Nat} {reg : Reg V}
    {i : Iface} {st : St V} {v : V} {st' : St V} (h : get fuel reg i st = .ok v st') :
    get fuel2 reg i st' = .ok v st' := by
  obtain ⟨pv, hl, hv⟩ := get_ok_spec h
  unfold get walk_dependencies
  rw [if_pos (by rw [is_resolved, hl]; rfl)]
  dsimp only [WalkRes.state]
  rw [show get_provided st' i = Except.ok pv from by unfold get_provided; rw [hl]]
  dsimp only
  rw [hv]

theorem loopWith_provide_tasks_const {V : Type} {reg : Reg V} :
    ∀ (fuel : Nat) (stack : List Iface) (st : St V),
      (loopWith provide reg fuel stack st).state.tasks = st.tasks := by
  intro fuel
  induction fuel with
  | zero => intro stack st; rfl
  | succ fuel ih =>
    intro stack st
    match stack with
    | [] => rfl
    | top :: rest =>
      rw [loopWith]
      cases hp : lookupA reg top with
      | none => rfl
      | some p =>
        dsimp only
        cases hfd : first_unresolved_dep st p with
        | some d =>
          dsimp only
          by_cases hmem : d ∈ top :: rest
          · rw [if_pos hmem]
            rfl
          · rw [if_neg hmem]
            exact ih (d :: top :: rest) st
        | none =>
          dsimp only
          cases hs : provide st p with
          | error e => rfl
          | ok st2 =>
            dsimp only
            rw [ih rest st2]
            exact (provide_ok_spec hs).choose_spec.2.1

theorem walk_dependencies_tasks_const {V : Type} (reg : Reg V) (fuel : Nat)
    (i : Iface) (st : St V) :
    (walk_dependencies fuel reg i st).state.tasks = st.tasks := by
  unfold walk_dependencies
  by_cases hres : is_resolved st i = true
  · rw [if_pos hres]
    rfl
  · rw [if_neg hres]
    exact loopWith_provide_tasks_const fuel [i] st

theorem get_tasks_const {V : Type} {fuel : Nat} {reg : Reg V} {i : Iface}
    {st : St V} {v : V} {st' : St V} (h : get fuel reg i st = .ok v st') :
    st'.tasks = st.tasks := by
  have := walk_dependencies_tasks_const reg fuel i st
  unfold get at h
  cases hw : walk_dependencies fuel reg i st <;> rw [hw] at h <;> dsimp only at h
  case err e st2 => cases h
  case fuelOut st2 => cases h
  case ok st2 =>
    cases hg : get_provided st2 i <;> rw [hg] at h <;> dsimp only at h
    · cases h
    · rename_i pv
      cases hv : PValue.get_value st2.tasks pv <;> rw [hv] at h <;> dsimp only at h
      · cases h
      · cases h
        rw [hw] at this
        exact this

theorem get_preserves {V : Type} {fuel : Nat} {reg : Reg V}
    (hreg : Reg.wellKeyed reg = true) {i : Iface} {st : St V} {v : V} {st' : St V}
    (h : get fuel reg i st = .ok v st') {j : Iface} {pv : PValue V}
    (hj : lookupA st.resolved j = some pv) : lookupA st'.resolved j = some pv := by
  have hw2 := walk_dependencies_preserves hreg fuel i st hj
  unfold get at h
  cases hw : walk_dependencies fuel reg i st <;> rw [hw] at h <;> dsimp only at h
  case err e st2 => cases h
  case fuelOut st2 => cases h
  case ok st2 =>
    cases hg : get_provided st2 i <;> rw [hg] at h <;> dsimp only at h
    · cases h
    · rename_i pv2
      cases hv : PValue.get_value st2.tasks pv2 <;> rw [hv] at h <;> dsimp only at h
      · cases h
      · cases h
        rw [hw] at hw2
        exact hw2

/-- Reads an already-resolved interface whose cached value is synchronously
readable: `get` returns that value and leaves the state untouched. -/
theorem get_of_resolved {V : Type} (fuel : Nat) (reg : Reg V) {i : Iface}
    {st : St V} {pv : PValue V} {v : V} (hl : lookupA st.resolved i = some pv)
    (hv : PValue.get_value st.tasks pv = Except.ok v) :
    get fuel reg i st = .ok v st := by
  unfold get walk_dependencies
  rw [if_pos (by rw [is_resolved, hl]; rfl)]
  dsimp only [WalkRes.state]
  rw [show get_provided st i = Except.ok pv from by unfold get_provided; rw [hl]]
  dsimp only
  rw [hv]

theorem injectLoop_ok_spec {V : Type} {fuel : Nat} {reg : Reg V}
    (hreg : Reg.wellKeyed reg = true) {ov : List (String × V)} :
    ∀ {deps : List (String × Iface)} {st : St V} {inj : List (String × V)}
      {st' : St V}, injectLoop fuel reg ov deps st = .ok inj st' →
      st'.tasks = st.tasks ∧
      (∀ j pv, lookupA st.resolved j = some pv → lookupA st'.resolved j = some pv) ∧
      injectLoop fuel reg ov deps st' = .ok inj st' := by
  intro deps
  induction deps with
  | nil =>
    intro st inj st' h
    cases h
    exact ⟨rfl, fun j pv hj => hj, rfl⟩
  | cons d rest ih =>
    intro st inj st' h
    rw [injectLoop] at h
    by_cases hov : (lookupA ov d.1).isSome
    · rw [if_pos hov] at h
      obtain ⟨ht, hp, hi⟩ := ih h
      refine ⟨ht, hp, ?_⟩
      rw [injectLoop, if_pos hov]
      exact hi
    · rw [if_neg hov] at h
      cases hg : get fuel reg d.2 st <;> rw [hg] at h <;> dsimp only at h
      rotate_left
      · cases h
      · cases h
      rename_i v st2
      cases hil : injectLoop fuel reg ov rest st2 <;> rw [hil] at h <;>
        dsimp only at h
      rotate_left
      · cases h
      · cases h
      rename_i inj2 st3
      cases h
      obtain ⟨ht, hp, hi⟩ := ih hil
      obtain ⟨pv, hl2, hv2⟩ := get_ok_spec hg
      have hts : st'.tasks = st.tasks := by rw [ht, get_tasks_const hg]
      refine ⟨hts, ?_, ?_⟩
      · intro j pv3 hj
        exact hp j pv3 (get_preserves hreg hg hj)
      · rw [injectLoop, if_neg hov]
        have hget' : get fuel reg d.2 st' = .ok v st' := by
          refine get_of_resolved fuel reg (hp _ _ hl2) ?_
          rw [ht]
          exact hv2
        rw [hget']
        dsimp only
        rw [hi]

theorem call_resolved_idempotent {V : Type} {fuel : Nat} {reg : Reg V}
    (hreg : Reg.wellKeyed reg = true) {f : Fn V} {ov : List (String × V)}
    {st : St V} {r : V} {st' : St V} (h : call fuel reg f ov st = .ok r st') :
    call fuel reg f ov st' = .ok r st' := by
  unfold call at h ⊢
  cases hil : injectLoop fuel reg ov f.deps st <;> rw [hil] at h <;> dsimp only at h
  case err e st2 => cases h
  case fuelOut st2 => cases h
  case ok inj st2 =>
    cases h
    rw [(injectLoop_ok_spec hreg hil).2.2]

/- ------------------------------------------------------------------ -/
/- Claim theorems                                                      -/
/- ------------------------------------------------------------------ -/

/-- C1: Single-assignment memoization.  (1) Once the resolver's memo map holds
a `ProvidedValue` for an interface, no dependency walk — synchronous or
asynchronous — ever replaces it: every existing entry survives unchanged in
the resulting state.  (2) Consequently a repeated `get` of an interface whose
previous `get` on the same injector succeeded returns the identical cached
value with the state (including the provider-invocation log) unchanged, so
the provider is never invoked a second time; (3) likewise a repeated `call`
returns the identical result with the state unchanged. -/
theorem C1_single_assignment_memoization :
    (∀ (V : Type) (fuel : Nat) (reg : Reg V) (i : Iface) (st : St V) (j : Iface)
      (pv : PValue V), Reg.wellKeyed reg = true →
      lookupA st.resolved j = some pv →
      lookupA (walk_dependencies fuel reg i st).state.resolved j = some pv ∧
      lookupA (awalk_dependencies fuel reg i st).state.resolved j = some pv) ∧
    (∀ (V : Type) (fuel fuel2 : Nat) (reg : Reg V) (i : Iface) (st : St V)
      (v : V) (st' : St V),
      get fuel reg i st = .ok v st' → get fuel2 reg i st' = .ok v st') ∧
    (∀ (V : Type) (fuel : Nat) (reg : Reg V) (f : Fn V) (ov : List (String × V))
      (st : St V) (r : V) (st' : St V), Reg.wellKeyed reg = true →
      call fuel reg f ov st = .ok r st' → call fuel reg f ov st' = .ok r st') := by
  refine ⟨?_, ?_, ?_⟩
  · intro V fuel reg i st j pv hreg hj
    exact ⟨walk_dependencies_preserves hreg fuel i st hj,
      awalk_dependencies_preserves hreg fuel i st hj⟩
  · intro V fuel fuel2 reg i st v st' h
    exact get_resolved_idempotent h
  · intro V fuel reg f ov st r st' hreg h
    exact call_resolved_idempotent hreg h

/-- Witness for C1 on a concrete two-provider graph (a constant provider for
interface 0, a synchronous callable for interface 1 depending on it). -/
theorem C1_witness :
    lookupA ((walk_dependencies 10
        [(0, Provider.const 0 (5 : Int))] 0 ⟨[(7, PValue.bare 9)], [], []⟩).state.resolved)
      7 = some (PValue.bare 9) ∧
    get 10 [(0, Provider.const 0 (5 : Int)), (1, Provider.callable 1 [(r"a", 0)]
        (fun vs => vs.foldl (· + ·) 10))] 1
      ⟨[(0, PValue.bare 5), (1, PValue.bare 15)], [], [0, 1]⟩ =
      .ok 15 ⟨[(0, PValue.bare 5), (1, PValue.bare 15)], [], [0, 1]⟩ ∧
    call 10 [(0, Provider.const 0 (5 : Int))]
      ⟨[(r"a", 0)], fun kw => (lookupA kw (r"a")).getD 0⟩ []
      ⟨[(0, PValue.bare 5)], [], [0]⟩ =
      .ok 5 ⟨[(0, PValue.bare 5)], [], [0]⟩ := by
  refine ⟨?_, ?_, ?_⟩
  · exact (C1_single_assignment_memoization.1 Int 10
      [(0, Provider.const 0 (5 : Int))] 0 ⟨[(7, PValue.bare 9)], [], []⟩ 7
      (PValue.bare 9) (by decide) (by decide)).1
  · exact C1_single_assignment_memoization.2.1 Int 10 10
      [(0, Provider.const 0 (5 : Int)), (1, Provider.callable 1 [(r"a", 0)]
        (fun vs => vs.foldl (· + ·) 10))] 1 St.empty 15
      ⟨[(0, PValue.bare 5), (1, PValue.bare 15)], [], [0, 1]⟩ (by decide)
  · exact C1_single_assignment_memoization.2.2 Int 10
      [(0, Provider.const 0 (5 : Int))]
      ⟨[(r"a", 0)], fun kw => (lookupA kw (r"a")).getD 0⟩ [] St.empty 5
      ⟨[(0, PValue.bare 5)], [], [0]⟩ (by decide) (by decide)

/-- C2: Cycle detection.  (1) Whenever the dependency walk is about to push an
interface `d` that is already present anywhere on the current resolution
stack, it fails immediately with `CircularDependency d` — naming that
interface — and the state is returned untouched, so nothing further is
provisioned and no further provider is invoked.  (2) At the facade level, for
any registry mapping `A` to a provider whose first dependency is `B` and `B`
to a provider whose first dependency is `A`, with both unresolved, the
synchronous walk for `A` fails with `CircularDependency A` leaving the state
exactly as it was — in particular no provider in the cycle was invoked. -/
theorem C2_cycle_detection :
    (∀ (V : Type) (step : St V → Provider V → Except Err (St V)) (reg : Reg V)
      (fuel : Nat) (top : Iface) (rest : List Iface) (st : St V) (p : Provider V)
      (d : Iface), lookupA reg top = some p →
      first_unresolved_dep st p = some d → d ∈ top :: rest →
      loopWith step reg (fuel + 1) (top :: rest) st = .err (Err.circular d) st) ∧
    (∀ (V : Type) (reg : Reg V) (fuel : Nat) (A B : Iface) (pA pB : Provider V)
      (st : St V), lookupA reg A = some pA → lookupA reg B = some pB →
      first_unresolved_dep st pA = some B → first_unresolved_dep st pB = some A →
      is_resolved st A = false → A ≠ B →
      walk_dependencies (fuel + 2) reg A st = .err (Err.circular A) st) := by
  constructor
  · intro V step reg fuel top rest st p d hp hfd hmem
    rw [loopWith, hp]
    dsimp only
    rw [hfd]
    dsimp only
    rw [if_pos hmem]
  · intro V reg fuel A B pA pB st hA hB hfdA hfdB hresA hAB
    unfold walk_dependencies walkLoop
    rw [if_neg (by rw [hresA]; intro hc; cases hc)]
    rw [show fuel + 2 = fuel + 1 + 1 from rfl]
    rw [loopWith, hA]
    dsimp only
    rw [hfdA]
    dsimp only
    rw [if_neg (by
      intro hmem
      exact hAB (List.mem_singleton.mp hmem).symm)]
    rw [loopWith, hB]
    dsimp only
    rw [hfdB]
    dsimp only
    rw [if_pos (List.mem_cons_of_mem B (List.mem_singleton.mpr rfl))]

/-- Witness for C2: the two-provider cycle `A -> B -> A` of
`test_circular_dependency` (interfaces 0 and 1).  Pushing `A = 0` while it is
already on the stack fails with `CircularDependency 0`, and `get A` on the
fresh injector fails the same way before any provider runs (the state — in
particular the invocation log — stays empty). -/
theorem C2_witness :
    loopWith (V := Int) provide [(0, Provider.callable 0 [(r"b", 1)] (fun _ => 0)),
        (1, Provider.callable 1 [(r"a", 0)] (fun _ => 0))] (8 + 1)
      [1, 0] St.empty = .err (Err.circular 0) St.empty ∧
    walk_dependencies (V := Int) (7 + 2) [(0, Provider.callable 0 [(r"b", 1)] (fun _ => 0)),
        (1, Provider.callable 1 [(r"a", 0)] (fun _ => 0))] 0 St.empty =
      .err (Err.circular 0) St.empty := by
  constructor
  · exact C2_cycle_detection.1 Int provide
      [(0, Provider.callable 0 [(r"b", 1)] (fun _ => 0)),
        (1, Provider.callable 1 [(r"a", 0)] (fun _ => 0))] 8 1 [0] St.empty
      (Provider.callable 1 [(r"a", 0)] (fun _ => 0)) 0 (by rfl) (by decide)
      (by decide)
  · exact C2_cycle_detection.2 Int
      [(0, Provider.callable 0 [(r"b", 1)] (fun _ => 0)),
        (1, Provider.callable 1 [(r"a", 0)] (fun _ => 0))] 7 0 1
      (Provider.callable 0 [(r"b", 1)] (fun _ => 0))
      (Provider.callable 1 [(r"a", 0)] (fun _ => 0)) St.empty (by rfl)
      (by rfl) (by decide) (by decide) (by decide) (by decide)

/-- C5: `get_value` on a Ready (`bare`) ProvidedValue returns the wrapped
value; on a Pending (`task`) ProvidedValue it returns the future's result if
and only if the future has already completed, and otherwise fails with the
bare sync/async-mismatch error. -/
theorem C5_get_value_ready_pending :
    (∀ (V : Type) (tasks : List (Future V)) (v : V),
      PValue.get_value tasks (PValue.bare v) = Except.ok v) ∧
    (∀ (V : Type) (tasks : List (Future V)) (id : Nat) (f : Future V),
      tasks[id]? = some f →
      PValue.get_value tasks (PValue.task id) =
        if f.done then Except.ok f.result else Except.error (Err.mismatch none)) := by
  constructor
  · intro V tasks v
    rfl
  · intro V tasks id f hf
    rw [PValue.get_value, hf]

/-- Witness for C5 on a concrete task store with one completed and one
still-pending future. -/
theorem C5_witness :
    PValue.get_value [⟨(3 : Int), true⟩, ⟨4, false⟩] (PValue.bare 7) = Except.ok 7 ∧
    PValue.get_value [⟨(3 : Int), true⟩, ⟨4, false⟩] (PValue.task 0) = Except.ok 3 ∧
    PValue.get_value [⟨(3 : Int), true⟩, ⟨4, false⟩] (PValue.task 1) =
      Except.error (Err.mismatch none) := by
  refine ⟨C5_get_value_ready_pending.1 Int [⟨3, true⟩, ⟨4, false⟩] 7, ?_, ?_⟩
  · have := C5_get_value_ready_pending.2 Int [⟨(3 : Int), true⟩, ⟨4, false⟩] 0
      ⟨3, true⟩ (by decide)
    simpa using this
  · have := C5_get_value_ready_pending.2 Int [⟨(3 : Int), true⟩, ⟨4, false⟩] 1
      ⟨4, false⟩ (by decide)
    simpa using this

/-- C4 counterexample: the claim's "if and only if" fails.  Interface 0 has an
asynchronous provider; after the async walk for 0 its Pending value sits in
the memo map with the future not yet completed (a state the injector reaches,
e.g. between scheduling and awaiting inside one `acall`).  The synchronous
provider for interface 1, which depends on 0, then makes `provide` raise
`SyncAsyncMismatch` even though `provider.is_async` is false — `get_value` on
the pending dependency raises it while the resolver gathers argument
values. -/
theorem C4_counterexample :
    awalk_dependencies (V := Int) 10 [(0, Provider.asyncCallable 0 [] (fun _ => 7)),
        (1, Provider.callable 1 [(r"a", 0)] (fun vs => vs.foldl (· + ·) 0))] 0
      St.empty = .ok ⟨[(0, PValue.task 0)], [⟨7, false⟩], [0]⟩ ∧
    (Provider.callable 1 [(r"a", 0)]
      (fun vs => vs.foldl (· + ·) 0) : Provider Int).is_async = false ∧
    provide (V := Int) ⟨[(0, PValue.task 0)], [⟨7, false⟩], [0]⟩
      (Provider.callable 1 [(r"a", 0)] (fun vs => vs.foldl (· + ·) 0)) =
      Except.error (Err.mismatch none) := by
  refine ⟨by decide, rfl, rfl⟩

/-- C4 (amended): `provide` raises `SyncAsyncMismatch(provider.interface)` if
the provider is asynchronous — nothing is stored and the provider is not
invoked; for a synchronous provider whose dependencies are present and whose
cached dependency values are all synchronously readable it invokes the
provider and stores the resulting ProvidedValue under the provider's
interface (the "only if" direction of the claim fails: a synchronous provider
whose cached dependency is a pending incomplete future also raises the bare
mismatch error, see the counterexample).  At the facade level, on an injector
whose only provider for X is asynchronous, `get X` fails with
`SyncAsyncMismatch(X)` leaving the state empty while `aget X` succeeds and
returns the produced value. -/
theorem C4_provide_sync_mismatch :
    (∀ (V : Type) (st : St V) (p : Provider V) (pvs : List (PValue V)),
      depValues st p = Except.ok pvs → p.is_async = true →
      provide st p = Except.error (Err.mismatch (some p.interface))) ∧
    (∀ (V : Type) (st : St V) (p : Provider V) (pvs : List (PValue V))
      (vals : List V), depValues st p = Except.ok pvs → p.is_async = false →
      mapE (PValue.get_value st.tasks) pvs = Except.ok vals →
      ∃ pv, provide st p =
        Except.ok { st with resolved := insertA st.resolved p.interface pv,
                            log := st.log ++ [p.interface] }) ∧
    (∀ (V : Type) (X : Iface) (f : List V → V) (fuel : Nat),
      get (fuel + 2) [(X, Provider.asyncCallable X [] f)] X St.empty =
        .err (Err.mismatch (some X)) St.empty ∧
      aget (fuel + 2) [(X, Provider.asyncCallable X [] f)] X St.empty =
        .ok (f []) ⟨[(X, PValue.task 0)], [⟨f [], true⟩], [X]⟩) := by
  refine ⟨?_, ?_, ?_⟩
  · intro V st p pvs hd hasync
    unfold provide
    rw [hd]
    dsimp only
    cases p with
    | const i v => exact absurd hasync (by simp [Provider.is_async])
    | callable i ds f => exact absurd hasync (by simp [Provider.is_async])
    | asyncCallable i ds f => rfl
  · intro V st p pvs vals hd hsync hm
    unfold provide
    rw [hd]
    dsimp only
    cases p with
    | const i v => exact ⟨PValue.bare v, rfl⟩
    | callable i ds f =>
      rw [hm]
      exact ⟨PValue.bare (f vals), rfl⟩
    | asyncCallable i ds f => exact absurd hsync (by simp [Provider.is_async])
  · intro V X f fuel
    have hlook : lookupA [(X, Provider.asyncCallable X [] f)] X =
        some (Provider.asyncCallable X [] f) := by
      simp [lookupA]
    have hunres : ¬(is_resolved (V := V) St.empty X = true) := by
      simp [is_resolved, lookupA, St.empty]
    constructor
    · unfold get walk_dependencies walkLoop
      rw [if_neg hunres]
      rw [show fuel + 2 = fuel + 1 + 1 from rfl, loopWith, hlook]
      dsimp only
      rw [show first_unresolved_dep (V := V) St.empty
          (Provider.asyncCallable X [] f) = none from rfl]
      dsimp only
      rw [show provide (V := V) St.empty (Provider.asyncCallable X [] f) =
          Except.error (Err.mismatch (some X)) from rfl]
    · unfold aget awalk_dependencies awalkLoop
      rw [if_neg hunres]
      rw [show fuel + 2 = fuel + 1 + 1 from rfl, loopWith, hlook]
      dsimp only
      rw [show first_unresolved_dep (V := V) St.empty
          (Provider.asyncCallable X [] f) = none from rfl]
      dsimp only
      rw [show aprovide (V := V) St.empty (Provider.asyncCallable X [] f) =
          Except.ok ⟨[(X, PValue.task 0)], [⟨f [], false⟩], [X]⟩ from rfl]
      dsimp only
      rw [loopWith]
      dsimp only [WalkRes.state]
      rw [show get_provided (V := V) ⟨[(X, PValue.task 0)], [⟨f [], false⟩], [X]⟩ X =
          Except.ok (PValue.task 0) from by simp [get_provided, lookupA]]
      dsimp only
      rfl

/-- Witness for C4's amended theorem at concrete inputs: an async constant-7
provider is rejected by `provide`; a sync provider with one bare-cached
dependency succeeds; the facade contrast holds for interface 3 with an async
provider producing 11. -/
theorem C4_witness :
    provide (V := Int) St.empty (Provider.asyncCallable 3 [] (fun _ => 11)) =
      Except.error (Err.mismatch (some 3)) ∧
    (∃ pv, provide (V := Int) ⟨[(0, PValue.bare 5)], [], [0]⟩
      (Provider.callable 1 [(r"a", 0)] (fun vs => vs.foldl (· + ·) 10)) =
        Except.ok ⟨insertA [(0, PValue.bare 5)] 1 pv, [], [0] ++ [1]⟩) ∧
    get 9 [(3, Provider.asyncCallable 3 [] (fun _ => (11 : Int)))] 3 St.empty =
      .err (Err.mismatch (some 3)) St.empty ∧
    aget 9 [(3, Provider.asyncCallable 3 [] (fun _ => (11 : Int)))] 3 St.empty =
      .ok 11 ⟨[(3, PValue.task 0)], [⟨11, true⟩], [3]⟩ := by
  refine ⟨?_, ?_, ?_, ?_⟩
  · exact C4_provide_sync_mismatch.1 Int St.empty
      (Provider.asyncCallable 3 [] (fun _ => 11)) [] rfl rfl
  · obtain ⟨pv, hpv⟩ := C4_provide_sync_mismatch.2.1 Int
      ⟨[(0, PValue.bare 5)], [], [0]⟩
      (Provider.callable 1 [(r"a", 0)] (fun vs => vs.foldl (· + ·) 10))
      [PValue.bare 5] [5] rfl rfl rfl
    exact ⟨pv, hpv⟩
  · exact (C4_provide_sync_mismatch.2.2 Int 3 (fun _ => (11 : Int)) 7).1
  · exact (C4_provide_sync_mismatch.2.2 Int 3 (fun _ => (11 : Int)) 7).2

theorem walk_dependencies_err_spec {V : Type} {fuel : Nat} {reg : Reg V} {i : Iface}
    {st : St V} {e : Err} {st' : St V} (hreg : Reg.wellKeyed reg = true)
    (h : walk_dependencies fuel reg i st = .err e st') :
    lookupA st'.resolved i = none ∧
    (∀ j, e.namedIface = some j → lookupA st'.resolved j = none) := by
  unfold walk_dependencies walkLoop at h
  by_cases hres : is_resolved st i = true
  · rw [if_pos hres] at h
    cases h
  · rw [if_neg hres] at h
    have := loopWith_err_unresolved provide_stepInserts
      (fun st p e h2 => provide_error_named h2) hreg fuel [i] st e st'
      (List.nodup_singleton i)
      (fun s hs => by rw [List.mem_singleton.mp hs]; exact Bool.eq_false_iff.mpr hres) h
    refine ⟨(is_resolved_false_iff _ _).mp (this.1 i (List.getLast?_singleton i)), ?_⟩
    intro j hj
    exact (is_resolved_false_iff _ _).mp (this.2 j hj)

theorem get_provided_error_internal {V : Type} {st : St V} {i : Iface} {e : Err}
    (h : get_provided st i = Except.error e) : e = Err.internal := by
  unfold get_provided at h
  cases hl : lookupA st.resolved i <;> rw [hl] at h <;> dsimp only at h
  · cases h
    rfl
  · cases h

theorem get_err_named {V : Type} {fuel : Nat} {reg : Reg V} {i : Iface} {st : St V}
    {e : Err} {st' : St V} (hreg : Reg.wellKeyed reg = true)
    (h : get fuel reg i st = .err e st') :
    ∀ j, e.namedIface = some j → lookupA st'.resolved j = none := by
  unfold get at h
  cases hw : walk_dependencies fuel reg i st <;> rw [hw] at h <;> dsimp only at h
  case err e2 st2 =>
    cases h
    exact (walk_dependencies_err_spec hreg hw).2
  case fuelOut st2 => cases h
  case ok st2 =>
    cases hg : get_provided st2 i <;> rw [hg] at h <;> dsimp only at h
    · rename_i e2
      cases h
      intro j hj
      rw [get_provided_error_internal hg] at hj
      cases hj
    · rename_i pv
      cases hv : PValue.get_value st2.tasks pv <;> rw [hv] at h <;> dsimp only at h
      · cases h
        intro j hj
        rw [get_value_error_unnamed hv] at hj
        cases hj
      · cases h

theorem injectLoop_err_named {V : Type} {fuel : Nat} {reg : Reg V}
    {ov : List (String × V)} (hreg : Reg.wellKeyed reg = true) :
    ∀ {deps : List (String × Iface)} {st : St V} {e : Err} {st' : St V},
      injectLoop fuel reg ov deps st = .err e st' →
      ∀ j, e.namedIface = some j → lookupA st'.resolved j = none := by
  intro deps
  induction deps with
  | nil =>
    intro st e st' h
    rw [injectLoop] at h
    cases h
  | cons d rest ih =>
    intro st e st' h
    rw [injectLoop] at h
    by_cases hov : (lookupA ov d.1).isSome
    · rw [if_pos hov] at h
      exact ih h
    · rw [if_neg hov] at h
      cases hg : get fuel reg d.2 st <;> rw [hg] at h <;> dsimp only at h
      · rename_i v st2
        cases hil : injectLoop fuel reg ov rest st2 <;> rw [hil] at h <;>
          dsimp only at h
        · cases h
        · cases h
          exact ih hil
        · cases h
      · cases h
        exact get_err_named hreg hg
      · cases h

/-- C7 counterexample: not every failure path leaves the failing interface
uncached.  After the async walk for interface 0 (whose provider is
asynchronous), its Pending value sits in the memo map with the future not yet
completed; `get 0` then fails with the bare `SyncAsyncMismatch` while the
memo map still holds the entry for 0 — and it remains there, so a subsequent
call cannot re-attempt resolution of 0. -/
theorem C7_counterexample :
    awalk_dependencies (V := Int) 10 [(0, Provider.asyncCallable 0 [] (fun _ => 7))] 0
      St.empty = .ok ⟨[(0, PValue.task 0)], [⟨7, false⟩], [0]⟩ ∧
    get (V := Int) 10 [(0, Provider.asyncCallable 0 [] (fun _ => 7))] 0
      ⟨[(0, PValue.task 0)], [⟨7, false⟩], [0]⟩ =
      .err (Err.mismatch none) ⟨[(0, PValue.task 0)], [⟨7, false⟩], [0]⟩ ∧
    is_resolved (V := Int) ⟨[(0, PValue.task 0)], [⟨7, false⟩], [0]⟩ 0 = true := by
  refine ⟨by decide, by decide, by decide⟩

/-- C7 (amended): failure atomicity for errors raised by the dependency walk.
When the synchronous walk for an interface fails, the whole `get` invocation
fails with that same error (no partial success), the walked interface has no
memo entry in the failure state, and neither has the interface named by the
error; similarly any failing `call` leaves the interface named by its error
uncached.  (The claim's further assertion that this covers the path where
`get X` fails with a sync/async mismatch on a cached pending future is false
— see the counterexample: there the entry for X stays cached.) -/
theorem C7_failure_atomicity :
    (∀ (V : Type) (fuel : Nat) (reg : Reg V) (i : Iface) (st : St V) (e : Err)
      (st' : St V), Reg.wellKeyed reg = true →
      walk_dependencies fuel reg i st = .err e st' →
      get fuel reg i st = .err e st' ∧
      lookupA st'.resolved i = none ∧
      (∀ j, e.namedIface = some j → lookupA st'.resolved j = none)) ∧
    (∀ (V : Type) (fuel : Nat) (reg : Reg V) (f : Fn V) (ov : List (String × V))
      (st : St V) (e : Err) (st' : St V), Reg.wellKeyed reg = true →
      call fuel reg f ov st = .err e st' →
      ∀ j, e.namedIface = some j → lookupA st'.resolved j = none) := by
  constructor
  · intro V fuel reg i st e st' hreg h
    have hspec := walk_dependencies_err_spec hreg h
    refine ⟨?_, hspec.1, hspec.2⟩
    unfold get
    rw [h]
  · intro V fuel reg f ov st e st' hreg h
    unfold call at h
    cases hil : injectLoop fuel reg ov f.deps st <;> rw [hil] at h <;> dsimp only at h
    case ok inj st2 => cases h
    case err e2 st2 =>
      cases h
      exact injectLoop_err_named hreg hil
    case fuelOut st2 => cases h

/-- Witness for C7's amended theorem: a missing-provider failure (registry
with a single provider for 0 depending on the absent interface 1) leaves
neither 0 nor the named interface 1 cached, for both `get` and `call`. -/
theorem C7_witness :
    get 10 [(0, Provider.callable 0 [(r"b", 1)] (fun vs => vs.foldl (· + ·) 0))]
      0 (St.empty (V := Int)) = .err (Err.missing 1) St.empty ∧
    lookupA (St.empty (V := Int)).resolved 0 = none ∧
    lookupA (St.empty (V := Int)).resolved 1 = none ∧
    call 10 [(0, Provider.callable 0 [(r"b", 1)] (fun vs => vs.foldl (· + ·) 0))]
      ⟨[(r"x", 0)], fun kw => (lookupA kw (r"x")).getD 0⟩ [] (St.empty (V := Int)) =
      .err (Err.missing 1) St.empty := by
  have h1 := C7_failure_atomicity.1 Int 10
    [(0, Provider.callable 0 [(r"b", 1)] (fun vs => vs.foldl (· + ·) 0))] 0
    St.empty (Err.missing 1) St.empty (by decide) (by decide)
  have h2 := C7_failure_atomicity.2 Int 10
    [(0, Provider.callable 0 [(r"b", 1)] (fun vs => vs.foldl (· + ·) 0))]
    ⟨[(r"x", 0)], fun kw => (lookupA kw (r"x")).getD 0⟩ [] St.empty
    (Err.missing 1) St.empty (by decide) (by decide) 1 rfl
  exact ⟨h1.1, h1.2.1, h2, by decide⟩

/-- C3: Async deduplication.  (1) When `aprovide` runs an asynchronous
provider, the fresh task's Future is appended with `done := false` and the
`Pending` ProvidedValue referring to it is stored in the memo map — i.e. the
entry exists before the underlying computation completes — while the
invocation log grows by exactly this one provider; every dependent that
awaits the stored Pending value receives the same result (the callee applied
to the dependencies' eventual values).  (2) Any later request for an
interface that is already in the memo map returns immediately from the async
walk with the state untouched: the in-flight computation is observed as
already resolved and the provider is not invoked again. -/
theorem C3_async_deduplication :
    (∀ (V : Type) (st st' : St V) (i : Iface) (ds : List (String × Iface))
      (f : List V → V),
      aprovide st (Provider.asyncCallable i ds f) = Except.ok st' →
      ∃ evs, lookupA st'.resolved i = some (PValue.task st.tasks.length) ∧
        st'.tasks = st.tasks ++ [⟨f evs, false⟩] ∧
        st'.log = st.log ++ [i] ∧
        PValue.aget_value st'.tasks (PValue.task st.tasks.length) =
          Except.ok (f evs, markDone st'.tasks st.tasks.length)) ∧
    (∀ (V : Type) (fuel : Nat) (reg : Reg V) (i : Iface) (st : St V),
      is_resolved st i = true → awalk_dependencies fuel reg i st = .ok st) := by
  constructor
  · intro V st st' i ds f h
    unfold aprovide at h
    cases hd : depValues st (Provider.asyncCallable i ds f) <;> rw [hd] at h <;>
      dsimp only at h
    · cases h
    · rename_i pvs
      cases hm : mapE (eventualE st.tasks) pvs <;> rw [hm] at h <;> dsimp only at h
      · cases h
      · rename_i evs
        cases h
        refine ⟨evs, ?_, rfl, rfl, ?_⟩
        · exact lookupA_insertA_self _ _ _
        · rw [PValue.aget_value]
          rw [show (st.tasks ++ [(⟨f evs, false⟩ : Future V)])[st.tasks.length]? =
            some ⟨f evs, false⟩ from List.getElem?_concat_length _ _]
  · intro V fuel reg i st hres
    unfold awalk_dependencies
    rw [if_pos hres]

/-- Witness for C3: running the async constant-7 provider for interface 0 on
a fresh injector stores `Pending(task 0)` with the future not yet done and
logs one invocation; an async walk for an interface already in the memo map
leaves the state untouched. -/
theorem C3_witness :
    (∃ st' : St Int,
      aprovide St.empty (Provider.asyncCallable 0 [] (fun _ => 7)) = Except.ok st' ∧
      lookupA st'.resolved 0 = some (PValue.task 0) ∧
      st'.tasks = [⟨7, false⟩] ∧ st'.log = [0]) ∧
    awalk_dependencies (V := Int) 5 [] 0 ⟨[(0, PValue.bare 2)], [], [0]⟩ =
      .ok ⟨[(0, PValue.bare 2)], [], [0]⟩ := by
  constructor
  · obtain ⟨evs, h1, h2, h3, h4⟩ :=
      C3_async_deduplication.1 Int St.empty ⟨[(0, PValue.task 0)], [⟨7, false⟩], [0]⟩
        0 [] (fun _ => 7) rfl
    exact ⟨⟨[(0, PValue.task 0)], [⟨7, false⟩], [0]⟩, rfl, h1, by decide, by decide⟩
  · exact C3_async_deduplication.2 Int 5 [] 0 ⟨[(0, PValue.bare 2)], [], [0]⟩
      (by decide)

/-- C10: when the list of injectable dependencies left after removing the
overridden names is empty — `f` has no annotated parameters, or every one of
them is overridden — `acall` fails before invoking `f`: the tuple unpacking
`names, interfaces = list(zip(*[...]))` of an empty list raises `ValueError`
(`Err.unpack`), which is not one of the four injection error kinds, and the
state is returned untouched (nothing is walked or provisioned). -/
theorem C10_acall_empty_unpack :
    ∀ (V : Type) (fuel : Nat) (reg : Reg V) (f : Fn V) (ov : List (String × V))
      (st : St V), f.deps.filter (fun d => (lookupA ov d.1).isNone) = [] →
      acall fuel reg f ov st = .err Err.unpack st ∧
      Err.isInjectionError Err.unpack = false := by
  intro V fuel reg f ov st hfilter
  refine ⟨?_, rfl⟩
  unfold acall
  dsimp only
  rw [hfilter]
  rfl

/-- Witness for C10: a function with a single annotated parameter `x` whose
interface has a registered provider, called with `x` overridden, fails with
the unpack error and an unchanged empty state. -/
theorem C10_witness :
    acall 10 [(0, Provider.const 0 (5 : Int))]
      ⟨[(r"x", 0)], fun kw => (lookupA kw (r"x")).getD 0⟩ [(r"x", 42)] St.empty =
      .err Err.unpack St.empty ∧
    Err.isInjectionError Err.unpack = false := by
  exact C10_acall_empty_unpack Int 10 [(0, Provider.const 0 (5 : Int))]
    ⟨[(r"x", 0)], fun kw => (lookupA kw (r"x")).getD 0⟩ [(r"x", 42)] St.empty
    (by decide)

theorem filter_keep_erase {V : Type} {ov : List (String × V)} {x : String}
    (hx : (lookupA ov x).isSome) :
    ∀ deps : List (String × Iface),
      (deps.filter fun d => d.1 ≠ x).filter (fun d => (lookupA ov d.1).isNone) =
        deps.filter fun d => (lookupA ov d.1).isNone := by
  intro deps
  induction deps with
  | nil => rfl
  | cons d rest ih =>
    by_cases hd : d.1 = x
    · have hnone : (lookupA ov d.1).isNone = false := by
        rw [hd]
        cases hl : lookupA ov x
        · rw [hl] at hx
          simp at hx
        · rfl
      rw [List.filter_cons, List.filter_cons]
      rw [show decide (d.1 ≠ x) = false from by simp [hd], hnone]
      simp only [Bool.false_eq_true, if_false]
      exact ih
    · rw [List.filter_cons, List.filter_cons]
      rw [show decide (d.1 ≠ x) = true from by simp [hd]]
      simp only [if_true]
      rw [List.filter_cons]
      rw [ih]

/-- C8: Override precedence.  (1) For every overridden parameter name `x`,
`call`'s injection loop behaves exactly as if every dependency named `x` were
absent from the function's signature: erasing those dependencies changes
neither the result nor the state — so the interface declared for `x` is never
looked up in the registry on `x`'s account, no memo entry is created on its
account, and no interface-matching provider is invoked on its account.
(2) A successful `call` passes the override value through to `f` for the
overridden name: the keyword arguments `f.body` receives map `x` to the
override.  (3) `acall` behaves exactly as if every dependency named `x` were
absent from the signature as well — the filtered dependency list `acall`
walks is the same, so no lookup, memo entry or provider invocation happens on
`x`'s account there either (including the corner where erasure leaves the
list empty: both sides then raise the same unpack `ValueError`).  (4) A
successful `acall` likewise passes the override value through to `f` for the
overridden name. -/
theorem C8_override_precedence :
    (∀ (V : Type) (fuel : Nat) (reg : Reg V) (ov : List (String × V)) (x : String)
      (deps : List (String × Iface)) (st : St V), (lookupA ov x).isSome →
      injectLoop fuel reg ov deps st =
        injectLoop fuel reg ov (deps.filter fun d => d.1 ≠ x) st) ∧
    (∀ (V : Type) (fuel : Nat) (reg : Reg V) (f : Fn V) (ov : List (String × V))
      (x : String) (st : St V) (r : V) (st' : St V),
      call fuel reg f ov st = .ok r st' →
      ∃ inj, r = f.body (ov ++ inj) ∧
        ∀ w, lookupA ov x = some w → lookupA (ov ++ inj) x = some w) ∧
    (∀ (V : Type) (fuel : Nat) (reg : Reg V) (deps : List (String × Iface))
      (body : List (String × V) → V) (ov : List (String × V)) (x : String)
      (st : St V), (lookupA ov x).isSome →
      acall fuel reg ⟨deps, body⟩ ov st =
        acall fuel reg ⟨deps.filter fun d => d.1 ≠ x, body⟩ ov st) ∧
    (∀ (V : Type) (fuel : Nat) (reg : Reg V) (f : Fn V) (ov : List (String × V))
      (x : String) (st : St V) (r : V) (st' : St V),
      acall fuel reg f ov st = .ok r st' →
      ∃ inj, r = f.body (ov ++ inj) ∧
        ∀ w, lookupA ov x = some w → lookupA (ov ++ inj) x = some w) := by
  refine ⟨?_, ?_, ?_, ?_⟩
  · intro V fuel reg ov x deps st hx
    induction deps generalizing st with
    | nil => rfl
    | cons d rest ih =>
      by_cases hd : d.1 = x
      · rw [show (d :: rest).filter (fun d => d.1 ≠ x) =
            rest.filter (fun d => d.1 ≠ x) from by simp [List.filter_cons, hd]]
        rw [injectLoop, if_pos (hd ▸ hx)]
        exact ih st
      · rw [show (d :: rest).filter (fun d => d.1 ≠ x) =
            d :: rest.filter (fun d => d.1 ≠ x) from by simp [List.filter_cons, hd]]
        rw [injectLoop, injectLoop]
        by_cases hov : (lookupA ov d.1).isSome
        · rw [if_pos hov, if_pos hov]
          exact ih st
        · rw [if_neg hov, if_neg hov]
          cases hg : get fuel reg d.2 st <;> dsimp only
          rw [ih]
  · intro V fuel reg f ov x st r st' h
    unfold call at h
    cases hil : injectLoop fuel reg ov f.deps st <;> rw [hil] at h <;> dsimp only at h
    case ok inj st2 =>
      cases h
      exact ⟨inj, rfl, fun w hw => lookupA_append_left inj hw⟩
    case err e st2 => cases h
    case fuelOut st2 => cases h
  · intro V fuel reg deps body ov x st hx
    unfold acall
    dsimp only
    rw [filter_keep_erase hx deps]
  · intro V fuel reg f ov x st r st' h
    unfold acall at h
    dsimp only at h
    split at h
    · cases h
    · split at h
      · cases h
      · cases h
      · split at h
        · cases h
        · split at h
          · cases h
          · cases h
            refine ⟨_, rfl, fun w hw => lookupA_append_left _ hw⟩

/-- Witness for C8: with a provider for interface 0 registered that would
produce 5, calling a function whose parameter `x` (declared interface 0) is
overridden with 42 resolves nothing for `x` — the injection loop equals the
loop over the `x`-less signature, and likewise `acall` on a two-parameter
function equals `acall` over the `x`-erased signature — and both `call` and
`acall` hand `f` the override value 42 (the latter alongside the injected
5 for `y`, totalling 47). -/
theorem C8_witness :
    injectLoop 10 [(0, Provider.const 0 (5 : Int))] [(r"x", 42)] [(r"x", 0)] St.empty =
      injectLoop 10 [(0, Provider.const 0 (5 : Int))] [(r"x", 42)] [] St.empty ∧
    (∃ inj, (42 : Int) = ((lookupA ([(r"x", 42)] ++ inj) (r"x")).getD 0 : Int) ∧
      ∀ w, lookupA [((r"x"), (42 : Int))] (r"x") = some w →
        lookupA ([(r"x", 42)] ++ inj) (r"x") = some w) ∧
    acall 10 [(0, Provider.const 0 (5 : Int))]
      ⟨[(r"x", 0), (r"y", 0)], fun kw => (lookupA kw (r"x")).getD 0 +
        (lookupA kw (r"y")).getD 0⟩ [(r"x", 42)] St.empty =
      acall 10 [(0, Provider.const 0 (5 : Int))]
      ⟨[(r"x", 0), (r"y", 0)].filter (fun d => d.1 ≠ (r"x")), fun kw =>
        (lookupA kw (r"x")).getD 0 + (lookupA kw (r"y")).getD 0⟩
        [(r"x", 42)] St.empty ∧
    (∃ inj, (47 : Int) = ((lookupA ([(r"x", 42)] ++ inj) (r"x")).getD 0 +
        (lookupA ([(r"x", 42)] ++ inj) (r"y")).getD 0 : Int) ∧
      ∀ w, lookupA [((r"x"), (42 : Int))] (r"x") = some w →
        lookupA ([(r"x", 42)] ++ inj) (r"x") = some w) := by
  refine ⟨?_, ?_, ?_, ?_⟩
  · have := C8_override_precedence.1 Int 10 [(0, Provider.const 0 (5 : Int))]
      [(r"x", 42)] (r"x") [(r"x", 0)] St.empty (by decide)
    simpa using this
  · obtain ⟨inj, h1, h2⟩ := C8_override_precedence.2.1 Int 10
      [(0, Provider.const 0 (5 : Int))]
      ⟨[(r"x", 0)], fun kw => (lookupA kw (r"x")).getD 0⟩ [(r"x", 42)] (r"x")
      St.empty 42 St.empty (by decide)
    exact ⟨inj, h1, h2⟩
  · exact C8_override_precedence.2.2.1 Int 10 [(0, Provider.const 0 (5 : Int))]
      [(r"x", 0), (r"y", 0)]
      (fun kw => (lookupA kw (r"x")).getD 0 + (lookupA kw (r"y")).getD 0)
      [(r"x", 42)] (r"x") St.empty (by decide)
  · obtain ⟨inj, h1, h2⟩ := C8_override_precedence.2.2.2 Int 10
      [(0, Provider.const 0 (5 : Int))]
      ⟨[(r"x", 0), (r"y", 0)], fun kw => (lookupA kw (r"x")).getD 0 +
        (lookupA kw (r"y")).getD 0⟩ [(r"x", 42)] (r"x") St.empty 47
      ⟨[(0, PValue.bare 5)], [], [0]⟩ (by decide)
    exact ⟨inj, h1, h2⟩

theorem insertSorted_perm {α : Type} (le : α → α → Bool) (a : α) :
    ∀ l : List α, (insertSorted le a l).Perm (a :: l) := by
  intro l
  induction l with
  | nil => exact List.Perm.refl _
  | cons b rest ih =>
    rw [insertSorted]
    by_cases hle : le a b
    · rw [if_pos hle]
    · rw [if_neg hle]
      exact (List.Perm.cons b ih).trans (List.Perm.swap a b rest)

theorem sortBy_perm {α : Type} (le : α → α → Bool) :
    ∀ l : List α, (sortBy le l).Perm l := by
  intro l
  induction l with
  | nil => exact List.Perm.refl _
  | cons a rest ih =>
    rw [sortBy]
    exact (insertSorted_perm le a (sortBy le rest)).trans (List.Perm.cons a ih)

theorem expandMembers_no_private {V : Type} :
    ∀ {ms : List (String × Decl V)}, (∀ m ∈ ms, isPrivateName m.1 = false) →
      Decl.expandMembers ms = ms.map fun m => (m.1, m.2.expand) := by
  intro ms
  induction ms with
  | nil => intro _; rfl
  | cons m rest ih =>
    intro h
    rw [Decl.expandMembers, if_neg (by
      rw [h m (List.mem_cons_self m rest)]
      intro hc
      cases hc)]
    rw [ih fun m2 hm2 => h m2 (List.mem_cons_of_mem m hm2), List.map_cons]

theorem lookupA_foldInsert {V : Type} :
    ∀ (l : List (Provider V)) (acc : Reg V) (i : Iface),
      lookupA (l.foldl (fun reg p => insertA reg p.interface p) acc) i =
        match l.reverse.find? (fun p => decide (p.interface = i)) with
        | some p => some p
        | none => lookupA acc i := by
  intro l
  induction l with
  | nil => intro acc i; rfl
  | cons p rest ih =>
    intro acc i
    rw [List.foldl_cons, ih, List.reverse_cons, List.find?_append]
    cases hfr : rest.reverse.find? (fun p => decide (p.interface = i)) with
    | some q => rfl
    | none =>
      dsimp only [Option.or]
      rw [List.find?_singleton]
      by_cases hpi : p.interface = i
      · rw [if_pos (by rw [hpi]; exact decide_eq_true rfl)]
        dsimp only
        rw [← hpi, lookupA_insertA_self]
      · rw [if_neg (by simp [hpi])]
        dsimp only
        rw [lookupA_insertA_ne _ _ (fun he => hpi he.symm)]

theorem find?_unique_iff {α : Type} {f : α → Bool} :
    ∀ {l : List α}, (∀ a ∈ l, ∀ b ∈ l, f a = true → f b = true → a = b) →
      ∀ {p : α}, (l.find? f = some p ↔ p ∈ l ∧ f p = true) := by
  intro l
  induction l with
  | nil =>
    intro _ p
    constructor
    · intro h
      cases h
    · intro ⟨hm, _⟩
      cases hm
  | cons a rest ih =>
    intro hu p
    rw [List.find?_cons]
    by_cases hfa : f a = true
    · rw [hfa]
      dsimp only
      constructor
      · intro h
        cases h
        exact ⟨List.mem_cons_self a rest, hfa⟩
      · intro ⟨hm, hfp⟩
        rcases List.mem_cons.mp hm with hpa | hpr
        · rw [hpa]
        · rw [hu p (List.mem_cons_of_mem a hpr) a (List.mem_cons_self a rest) hfp hfa]
    · rw [Bool.not_eq_true] at hfa
      rw [hfa]
      dsimp only
      have ih2 := ih (fun x hx y hy => hu x (List.mem_cons_of_mem a hx) y
        (List.mem_cons_of_mem a hy)) (p := p)
      rw [ih2]
      rw [Bool.eq_false_iff] at hfa
      constructor
      · intro ⟨hm, hfp⟩
        exact ⟨List.mem_cons_of_mem a hm, hfp⟩
      · intro ⟨hm, hfp⟩
        rcases List.mem_cons.mp hm with hpa | hpr
        · exact absurd (hpa ▸ hfp) hfa
        · exact ⟨hpr, hfp⟩

theorem find?_eq_of_perm_unique {α : Type} {f : α → Bool} {l1 l2 : List α}
    (hp : l1.Perm l2) (hu : ∀ a ∈ l1, ∀ b ∈ l1, f a = true → f b = true → a = b) :
    l1.find? f = l2.find? f := by
  have hu2 : ∀ a ∈ l2, ∀ b ∈ l2, f a = true → f b = true → a = b := by
    intro a ha b hb
    exact hu a (hp.mem_iff.mpr ha) b (hp.mem_iff.mpr hb)
  cases hf : l1.find? f with
  | some p =>
    have := (find?_unique_iff hu).mp hf
    exact ((find?_unique_iff hu2).mpr ⟨hp.mem_iff.mp this.1, this.2⟩).symm
  | none =>
    cases hf2 : l2.find? f with
    | some q =>
      have := (find?_unique_iff hu2).mp hf2
      have hq1 : q ∈ l1 := hp.mem_iff.mpr this.1
      have := (find?_unique_iff hu).mpr ⟨hq1, this.2⟩
      rw [this] at hf
      cases hf
    | none => rfl

/-- Providers yielded by a module declaration: each non-underscore member's
expansion, concatenated in `dir()` (name-sorted) order. -/
theorem expand_module_perm {V : Type} (ms : List (String × Decl V))
    (hpub : ∀ m ∈ ms, isPrivateName m.1 = false) :
    (Decl.expand (Decl.module ms)).Perm ((ms.map Prod.snd).flatMap Decl.expand) := by
  rw [Decl.expand, expandMembers_no_private hpub]
  have hperm := sortBy_perm byNameLe (ms.map fun m => (m.1, m.2.expand))
  have := List.Perm.flatMap_right (fun x => Prod.snd x) hperm
  refine this.trans ?_
  rw [List.flatMap_map, List.flatMap_map]

/-- C9 counterexample: module grouping does not always produce the same
registry as passing the declarations individually.  A module whose member
`b` declares provider `const 0 1` and member `a` declares `const 0 2` (both
targeting interface 0) expands in `dir()` order — alphabetically, `a` before
`b` — so the module registry maps 0 to `const 0 1`; the same declarations
passed individually in declaration order map 0 to `const 0 2` (last
registration wins in both cases, but the two orders differ). -/
theorem C9_counterexample :
    lookupA (make_provider_dict (V := Int)
      [Decl.module [(r"b", Decl.atom (Provider.const 0 1)),
        (r"a", Decl.atom (Provider.const 0 2))]]) 0 ≠
    lookupA (make_provider_dict (V := Int)
      [Decl.atom (Provider.const 0 1), Decl.atom (Provider.const 0 2)]) 0 := by
  intro h
  rw [show lookupA (make_provider_dict (V := Int)
      [Decl.module [(r"b", Decl.atom (Provider.const 0 1)),
        (r"a", Decl.atom (Provider.const 0 2))]]) 0 =
      some (Provider.const 0 1) from rfl] at h
  rw [show lookupA (make_provider_dict (V := Int)
      [Decl.atom (Provider.const 0 1), Decl.atom (Provider.const 0 2)]) 0 =
      some (Provider.const 0 2) from rfl] at h
  have h2 := Option.some.inj h
  injection h2 with h3 h4
  exact absurd h4 (by decide)

/-- C9 (amended): module expansion equivalence.  (1) When the providers
declared by the module's (non-underscore-named) members target pairwise
distinct interfaces, grouping them in a module yields the same registry, as
an interface-to-provider mapping, as passing the member declarations
individually in declaration order — the module's `dir()`-order (alphabetical)
expansion is a permutation of the declaration-order expansion, and with
distinct interfaces the resulting dict does not depend on the order.  (When
two declarations target the same interface the registries can differ, see the
counterexample, because `dir()` reorders members alphabetically before
last-registration-wins applies.)  (2) Last registration wins: appending a
declaration for provider `p` makes the registry map `p.interface` to `p`. -/
theorem C9_module_expansion :
    (∀ (V : Type) (ms : List (String × Decl V)),
      (∀ m ∈ ms, isPrivateName m.1 = false) →
      ((((ms.map Prod.snd).flatMap Decl.expand).map Provider.interface)).Nodup →
      ∀ i, lookupA (make_provider_dict [Decl.module ms]) i =
        lookupA (make_provider_dict (ms.map Prod.snd)) i) ∧
    (∀ (V : Type) (ds : List (Decl V)) (p : Provider V),
      lookupA (make_provider_dict (ds ++ [Decl.atom p])) p.interface = some p) := by
  constructor
  · intro V ms hpub hnd i
    unfold make_provider_dict
    rw [List.flatMap_cons, List.flatMap_nil, List.append_nil]
    rw [lookupA_foldInsert, lookupA_foldInsert]
    have hperm : (Decl.expand (Decl.module ms)).reverse.Perm
        ((ms.map Prod.snd).flatMap Decl.expand).reverse := by
      have h1 := expand_module_perm ms hpub
      exact (List.reverse_perm _).trans (h1.trans (List.reverse_perm _).symm)
    have hnd2 : ((((ms.map Prod.snd).flatMap Decl.expand).reverse).map
        Provider.interface).Nodup :=
      (List.Perm.nodup_iff
        (List.Perm.map Provider.interface (List.reverse_perm _))).mpr hnd
    have hu : ∀ a ∈ (Decl.expand (Decl.module ms)).reverse,
        ∀ b ∈ (Decl.expand (Decl.module ms)).reverse,
        decide (a.interface = i) = true → decide (b.interface = i) = true → a = b := by
      intro a ha b hb hfa hfb
      have ha2 : a ∈ ((ms.map Prod.snd).flatMap Decl.expand).reverse :=
        hperm.mem_iff.mp ha
      have hb2 : b ∈ ((ms.map Prod.snd).flatMap Decl.expand).reverse :=
        hperm.mem_iff.mp hb
      exact List.inj_on_of_nodup_map hnd2 ha2 hb2
        (by rw [of_decide_eq_true hfa, of_decide_eq_true hfb])
    rw [find?_eq_of_perm_unique hperm hu]
  · intro V ds p
    unfold make_provider_dict
    rw [List.flatMap_append, List.flatMap_cons, List.flatMap_nil, List.append_nil,
      List.foldl_append]
    rw [show Decl.expand (Decl.atom p) = [p] from rfl]
    rw [List.foldl_cons, List.foldl_nil, lookupA_insertA_self]

/-- Witness for C9's amended theorem: a module with members `b` (constant for
interface 0) and `a` (constant for interface 1) — distinct interfaces —
yields the same mapping as passing the two declarations individually, and a
second declaration for interface 0 appended at the end wins. -/
theorem C9_witness :
    (lookupA (make_provider_dict (V := Int)
        [Decl.module [(r"b", Decl.atom (Provider.const 0 4)),
          (r"a", Decl.atom (Provider.const 1 9))]]) 0 =
      lookupA (make_provider_dict (V := Int)
        [Decl.atom (Provider.const 0 4), Decl.atom (Provider.const 1 9)]) 0) ∧
    lookupA (make_provider_dict (V := Int)
      [Decl.atom (Provider.const 0 4), Decl.atom (Provider.const 0 8)]) 0 =
      some (Provider.const 0 8) := by
  constructor
  · have := C9_module_expansion.1 Int
      [(r"b", Decl.atom (Provider.const 0 4)), (r"a", Decl.atom (Provider.const 1 9))]
      (by decide) (by decide) 0
    rw [show (([(r"b", Decl.atom (Provider.const (V := Int) 0 4)),
      (r"a", Decl.atom (Provider.const 1 9))].map Prod.snd)) =
      [Decl.atom (Provider.const 0 4), Decl.atom (Provider.const 1 9)] from rfl] at this
    exact this
  · exact C9_module_expansion.2 Int [Decl.atom (Provider.const 0 4)]
      (Provider.const 0 8)

theorem mapE_ok_length {α β : Type} {f : α → Except Err β} :
    ∀ {l : List α} {bs : List β}, mapE f l = Except.ok bs → bs.length = l.length := by
  intro l
  induction l with
  | nil =>
    intro bs h
    cases h
    rfl
  | cons a rest ih =>
    intro bs h
    rw [mapE] at h
    cases hfa : f a <;> rw [hfa] at h <;> dsimp only at h
    · cases h
    · cases hr : mapE f rest <;> rw [hr] at h <;> dsimp only at h
      · cases h
      · cases h
        rw [List.length_cons, List.length_cons, ih hr]

theorem mapE_ok_getElem {α β : Type} {f : α → Except Err β} :
    ∀ {l : List α} {bs : List β}, mapE f l = Except.ok bs →
      ∀ (k : Nat) (a : α), l[k]? = some a →
        ∃ b, bs[k]? = some b ∧ f a = Except.ok b := by
  intro l
  induction l with
  | nil =>
    intro bs h k a hk
    cases hk
  | cons a0 rest ih =>
    intro bs h k a hk
    rw [mapE] at h
    cases hfa : f a0 <;> rw [hfa] at h <;> dsimp only at h
    · cases h
    · cases hr : mapE f rest <;> rw [hr] at h <;> dsimp only at h
      · cases h
      · cases h
        match k with
        | 0 =>
          rw [List.getElem?_cons_zero] at hk
          cases hk
          exact ⟨_, List.getElem?_cons_zero, hfa⟩
        | k + 1 =>
          rw [List.getElem?_cons_succ] at hk
          obtain ⟨b, hb, hfb⟩ := ih hr k a hk
          exact ⟨b, by rw [List.getElem?_cons_succ]; exact hb, hfb⟩

theorem mapE_ok_mem {α β : Type} {f : α → Except Err β} :
    ∀ {l : List α} {bs : List β}, mapE f l = Except.ok bs →
      ∀ b ∈ bs, ∃ a ∈ l, f a = Except.ok b := by
  intro l
  induction l with
  | nil =>
    intro bs h b hb
    cases h
    cases hb
  | cons a0 rest ih =>
    intro bs h b hb
    rw [mapE] at h
    cases hfa : f a0 <;> rw [hfa] at h <;> dsimp only at h
    · cases h
    · cases hr : mapE f rest <;> rw [hr] at h <;> dsimp only at h
      · cases h
      · cases h
        rcases List.mem_cons.mp hb with hb0 | hbr
        · exact ⟨a0, List.mem_cons_self a0 rest, hb0 ▸ hfa⟩
        · obtain ⟨a, ha, hfa2⟩ := ih hr b hbr
          exact ⟨a, List.mem_cons_of_mem a0 ha, hfa2⟩

theorem mapE_ok_of_forall {α β : Type} {f : α → Except Err β} :
    ∀ {l : List α}, (∀ a ∈ l, ∃ b, f a = Except.ok b) →
      ∃ bs, mapE f l = Except.ok bs := by
  intro l
  induction l with
  | nil => intro _; exact ⟨[], rfl⟩
  | cons a rest ih =>
    intro h
    obtain ⟨b, hb⟩ := h a (List.mem_cons_self a rest)
    obtain ⟨bs, hbs⟩ := ih fun x hx => h x (List.mem_cons_of_mem a hx)
    refine ⟨b :: bs, ?_⟩
    rw [mapE, hb]
    dsimp only
    rw [hbs]

theorem insertSorted_mem {α : Type} {le : α → α → Bool} {x a : α} :
    ∀ {l : List α}, x ∈ insertSorted le a l → x = a ∨ x ∈ l := by
  intro l
  induction l with
  | nil =>
    intro h
    rcases List.mem_singleton.mp h with h2
    exact Or.inl h2
  | cons b rest ih =>
    intro h
    rw [insertSorted] at h
    by_cases hle : le a b
    · rw [if_pos hle] at h
      rcases List.mem_cons.mp h with h2 | h2
      · exact Or.inl h2
      · exact Or.inr h2
    · rw [if_neg hle] at h
      rcases List.mem_cons.mp h with h2 | h2
      · exact Or.inr (h2 ▸ List.mem_cons_self b rest)
      · rcases ih h2 with h3 | h3
        · exact Or.inl h3
        · exact Or.inr (List.mem_cons_of_mem b h3)

theorem insertSorted_pairwise_pos {α : Type} {a : Nat × α} :
    ∀ {l : List (Nat × α)},
      l.Pairwise (fun p q : Nat × α => p.1 ≤ q.1) →
      (insertSorted (fun p q => decide (p.1 ≤ q.1)) a l).Pairwise
        (fun p q : Nat × α => p.1 ≤ q.1) := by
  intro l
  induction l with
  | nil => intro _; exact List.pairwise_singleton _ a
  | cons b rest ih =>
    intro hp
    obtain ⟨hb, hrest⟩ := List.pairwise_cons.mp hp
    rw [insertSorted]
    by_cases hle : (decide (a.1 ≤ b.1) : Bool)
    · rw [if_pos hle]
      have hab : a.1 ≤ b.1 := of_decide_eq_true hle
      refine List.pairwise_cons.mpr ⟨?_, hp⟩
      intro x hx
      rcases List.mem_cons.mp hx with hxb | hxr
      · rw [hxb]
        exact hab
      · exact le_trans hab (hb x hxr)
    · rw [if_neg hle]
      have hba : b.1 ≤ a.1 := by
        have := of_decide_eq_false (Bool.eq_false_iff.mpr hle)
        omega
      refine List.pairwise_cons.mpr ⟨?_, ih hrest⟩
      intro x hx
      rcases insertSorted_mem hx with hxa | hxr
      · rw [hxa]
        exact hba
      · exact hb x hxr

theorem sortByPos_pairwise {α : Type} :
    ∀ l : List (Nat × α),
      (sortByPos l).Pairwise (fun p q : Nat × α => p.1 ≤ q.1) := by
  intro l
  induction l with
  | nil => exact List.Pairwise.nil
  | cons a rest ih => exact insertSorted_pairwise_pos ih

theorem map_snd_of_graph {α : Type} (l : List (Nat × α)) (evs : List α)
    (hfst : l.map Prod.fst = List.range evs.length)
    (hprop : ∀ pr ∈ l, evs[pr.1]? = some pr.2) : l.map Prod.snd = evs := by
  have hlen : l.length = evs.length := by
    have := congrArg List.length hfst
    simpa using this
  apply List.ext_getElem?
  intro k
  by_cases hk : k < l.length
  · cases hl : l[k]? with
    | none =>
      rw [List.getElem?_eq_none_iff] at hl
      omega
    | some pr =>
      have hfk : (l.map Prod.fst)[k]? = some pr.1 := by
        rw [List.getElem?_map, hl]
        rfl
      rw [hfst, List.getElem?_range (by omega)] at hfk
      have hk2 : pr.1 = k := (Option.some.inj hfk).symm
      have hm : pr ∈ l := List.getElem?_mem hl
      rw [List.getElem?_map, hl]
      rw [← hk2, hprop pr hm]
      rfl
  · rw [List.getElem?_eq_none (by simpa using (by omega : l.length ≤ k)),
      List.getElem?_eq_none (by omega)]

theorem partition_fst_perm {V : Type} :
    ∀ l : List (Nat × PValue V),
      ((l.filterMap readyEntry).map Prod.fst ++
        (l.filterMap pendEntry).map Prod.fst).Perm (l.map Prod.fst) := by
  intro l
  induction l with
  | nil => exact List.Perm.refl _
  | cons pr rest ih =>
    obtain ⟨k, pv⟩ := pr
    cases pv with
    | bare v =>
      rw [List.filterMap_cons, List.filterMap_cons]
      rw [show readyEntry (V := V) (k, PValue.bare v) = some (k, v) from rfl,
        show pendEntry (V := V) (k, PValue.bare v) = none from rfl]
      dsimp only
      rw [List.map_cons, List.cons_append]
      exact ih.cons k
    | task id =>
      rw [List.filterMap_cons, List.filterMap_cons]
      rw [show readyEntry (V := V) (k, PValue.task id) = none from rfl,
        show pendEntry (V := V) (k, PValue.task id) = some (k, id) from rfl]
      dsimp only
      rw [List.map_cons]
      exact List.perm_middle.trans (ih.cons k)

theorem mem_filterMap_pendEntry {V : Type} {values : List (PValue V)}
    {pi : Nat × Nat} :
    pi ∈ values.enum.filterMap pendEntry ↔ values[pi.1]? = some (PValue.task pi.2) := by
  rw [List.mem_filterMap]
  constructor
  · intro ⟨a, hmem, hf⟩
    obtain ⟨k, pv⟩ := a
    cases pv with
    | bare v =>
      rw [show pendEntry (V := V) (k, PValue.bare v) = none from rfl] at hf
      cases hf
    | task id =>
      rw [show pendEntry (V := V) (k, PValue.task id) = some (k, id) from rfl] at hf
      cases hf
      exact List.mem_enum_iff_getElem?.mp hmem
  · intro h
    exact ⟨(pi.1, PValue.task pi.2), List.mem_enum_iff_getElem?.mpr h, rfl⟩

theorem mem_filterMap_readyEntry {V : Type} {values : List (PValue V)}
    {pr : Nat × V} :
    pr ∈ values.enum.filterMap readyEntry ↔ values[pr.1]? = some (PValue.bare pr.2) := by
  rw [List.mem_filterMap]
  constructor
  · intro ⟨a, hmem, hf⟩
    obtain ⟨k, pv⟩ := a
    cases pv with
    | task id =>
      rw [show readyEntry (V := V) (k, PValue.task id) = none from rfl] at hf
      cases hf
    | bare v =>
      rw [show readyEntry (V := V) (k, PValue.bare v) = some (k, v) from rfl] at hf
      cases hf
      exact List.mem_enum_iff_getElem?.mp hmem
  · intro h
    exact ⟨(pr.1, PValue.bare pr.2), List.mem_enum_iff_getElem?.mpr h, rfl⟩

theorem mapE_error_mem {α β : Type} {f : α → Except Err β} :
    ∀ {l : List α} {e : Err}, mapE f l = Except.error e →
      ∃ a ∈ l, f a = Except.error e := by
  intro l
  induction l with
  | nil =>
    intro e h
    cases h
  | cons a rest ih =>
    intro e h
    rw [mapE] at h
    cases hfa : f a <;> rw [hfa] at h <;> dsimp only at h
    · cases h
      exact ⟨a, List.mem_cons_self a rest, hfa⟩
    · cases hr : mapE f rest <;> rw [hr] at h <;> dsimp only at h
      · cases h
        obtain ⟨a2, ha2, hf2⟩ := ih hr
        exact ⟨a2, List.mem_cons_of_mem a ha2, hf2⟩
      · cases h

theorem mapE_gatherOne_fst {V : Type} {tasks : List (Future V)} :
    ∀ {pend : List (Nat × Nat)} {gathered : List (Nat × V)},
      mapE (gatherOne tasks) pend = Except.ok gathered →
      gathered.map Prod.fst = pend.map Prod.fst := by
  intro pend
  induction pend with
  | nil =>
    intro gathered h
    cases h
    rfl
  | cons pi rest ih =>
    intro gathered h
    rw [mapE] at h
    cases hfa : gatherOne tasks pi <;> rw [hfa] at h <;> dsimp only at h
    · cases h
    · cases hr : mapE (gatherOne tasks) rest <;> rw [hr] at h <;> dsimp only at h
      · cases h
      · cases h
        have hfst : ∀ {out : Nat × V}, gatherOne tasks pi = Except.ok out →
            out.1 = pi.1 := by
          intro out hout
          unfold gatherOne at hout
          cases ht : tasks[pi.2]? <;> rw [ht] at hout <;> dsimp only at hout
          · cases hout
          · cases hout
            rfl
        rw [List.map_cons, List.map_cons, ih hr, hfst hfa]

theorem eventualE_ok_iff {V : Type} {tasks : List (Future V)} {pv : PValue V}
    {v : V} : eventualE tasks pv = Except.ok v ↔ PValue.eventual tasks pv = some v := by
  unfold eventualE
  cases he : PValue.eventual tasks pv <;> dsimp only
  · constructor
    · intro h
      cases h
    · intro h
      cases h
  · constructor
    · intro h
      cases h
      rfl
    · intro h
      cases h
      rfl

theorem sortByPos_perm {α : Type} (l : List (Nat × α)) : (sortByPos l).Perm l :=
  sortBy_perm _ l

/-- C6: `aget_multiple` returns all resulting values in the original input
order.  For any mix of ready and pending inputs whose referenced tasks all
exist (equivalently: whose eventual values are defined, which is what
`mapE (eventualE tasks) values = ok evs` says), the returned list is exactly
the inputs' eventual values, in input order: results are keyed by their
`enumerate` position and sorted back, so the interleaving of ready and
pending entries — and the order in which pending computations complete,
which the position keys are independent of — cannot reorder them. -/
theorem C6_aget_multiple_order :
    ∀ (V : Type) (tasks : List (Future V)) (values : List (PValue V))
      (evs : List V), mapE (eventualE tasks) values = Except.ok evs →
      ∃ tasks2, PValue.aget_multiple tasks values = Except.ok (evs, tasks2) := by
  intro V tasks values evs hev
  have hn : evs.length = values.length := mapE_ok_length hev
  have hpend : ∀ pi : Nat × Nat, pi ∈ values.enum.filterMap pendEntry →
      ∃ f : Future V, tasks[pi.2]? = some f ∧ evs[pi.1]? = some f.result := by
    intro pi hpi
    have hv := mem_filterMap_pendEntry.mp hpi
    obtain ⟨b, hb, hfb⟩ := mapE_ok_getElem hev pi.1 _ hv
    rw [eventualE_ok_iff, PValue.eventual] at hfb
    cases ht : tasks[pi.2]? <;> rw [ht] at hfb
    · cases hfb
    · rename_i f
      refine ⟨f, rfl, ?_⟩
      rw [Option.map_some'] at hfb
      cases hfb
      exact hb
  unfold PValue.aget_multiple
  dsimp only
  split
  · rename_i e heq
    obtain ⟨pi, hpi, hge⟩ := mapE_error_mem heq
    obtain ⟨f, ht, _⟩ := hpend pi hpi
    unfold gatherOne at hge
    rw [ht] at hge
    dsimp only at hge
    cases hge
  · rename_i gathered heq
    have hmain : (sortByPos (values.enum.filterMap readyEntry ++ gathered)).map
        Prod.snd = evs := by
      apply map_snd_of_graph
      · have hperm1 : ((sortByPos (values.enum.filterMap readyEntry ++
            gathered)).map Prod.fst).Perm
            ((values.enum.filterMap readyEntry ++ gathered).map Prod.fst) :=
          (sortByPos_perm _).map Prod.fst
        have heq2 : (values.enum.filterMap readyEntry ++ gathered).map Prod.fst =
            (values.enum.filterMap readyEntry).map Prod.fst ++
            (values.enum.filterMap pendEntry).map Prod.fst := by
          rw [List.map_append, mapE_gatherOne_fst heq]
        have hperm3 : ((sortByPos (values.enum.filterMap readyEntry ++
            gathered)).map Prod.fst).Perm (List.range evs.length) := by
          rw [hn]
          refine hperm1.trans ?_
          rw [heq2, ← List.enum_map_fst values]
          exact partition_fst_perm values.enum
        have hs1 : List.Sorted (· ≤ ·) ((sortByPos (values.enum.filterMap
            readyEntry ++ gathered)).map Prod.fst) :=
          List.Pairwise.map Prod.fst (fun a b h => h) (sortByPos_pairwise _)
        exact List.eq_of_perm_of_sorted hperm3 hs1 (List.sorted_le_range _)
      · intro pr hpr
        have hmem : pr ∈ values.enum.filterMap readyEntry ++ gathered :=
          (sortByPos_perm _).mem_iff.mp hpr
        rcases List.mem_append.mp hmem with hr | hg
        · have hv := mem_filterMap_readyEntry.mp hr
          obtain ⟨b, hb, hfb⟩ := mapE_ok_getElem hev pr.1 _ hv
          rw [eventualE_ok_iff, PValue.eventual] at hfb
          cases hfb
          exact hb
        · obtain ⟨pi, hpi, hgo⟩ := mapE_ok_mem heq pr hg
          obtain ⟨f, ht, hev2⟩ := hpend pi hpi
          unfold gatherOne at hgo
          rw [ht] at hgo
          dsimp only at hgo
          cases hgo
          exact hev2
    rw [hmain]
    exact ⟨_, rfl⟩

/-- Witness for C6: a concrete interleaving of two pending tasks (one not yet
completed, one completed) around a ready value comes back in input order
`[200, 5, 100]`, not in readiness or completion order. -/
theorem C6_witness :
    ∃ tasks2, PValue.aget_multiple [⟨(100 : Int), false⟩, ⟨200, true⟩]
      [PValue.task 1, PValue.bare 5, PValue.task 0] =
      Except.ok ([200, 5, 100], tasks2) :=
  C6_aget_multiple_order Int [⟨100, false⟩, ⟨200, true⟩]
    [PValue.task 1, PValue.bare 5, PValue.task 0] [200, 5, 100] rfl

end AsyncInjector
